import Mathlib

/-!
# Verification of the PTRA patient-trajectory analysis core

This file is a shallow embedding, in Lean 4, of the core of the PTRA
library (packages `trajectory`, `cluster`, `utils` of the Go source),
together with theorems settling a list of claims about it.

Modelling conventions:

* Go `float64` values are modelled as exact rationals (`ℚ`); the
  date-to-float projection, relative-risk arithmetic and Jaccard
  weights are ordinary field operations on `ℚ`.  Transcendental float
  computations (the Lanczos `gammaLn`, the `betaCf` continued
  fraction) are not representable exactly; they are abstracted as an
  explicit function parameter wherever they occur.
* Go slices and maps are modelled as lists, association lists, or
  total functions with the Go zero-value as the default for a missing
  key, matching Go map-read semantics.
* Go `panic` is modelled by an `Option` result (`none` = panic).
* The Go `map` iteration order and the two `parallel.Range` /
  `parallel.RangeReduce` loops are modelled by a deterministic
  sequential schedule (a single range); the fast thread-local PRNG of
  the matched sampler is modelled by an explicit stream of booleans
  (one boolean per call of `fastrand.Uint32n(2)`).
-/

set_option maxHeartbeats 1000000

namespace Ptra

/-! ## Data model (`trajectory/metrics.go`) -/

/-- Sex constant `Male = 0` from `metrics.go`. -/
def Male : ℕ := 0

/-- Sex constant `Female = 1` from `metrics.go`. -/
def Female : ℕ := 1

/-- `DiagnosisDate` — year, month, day of a diagnosis. -/
structure DiagnosisDate where
  Year : Int
  Month : Int
  Day : Int
  deriving DecidableEq, Repr

/-- `DiagnosisDateSmallerThan` — lexicographic date order from `metrics.go`. -/
def DiagnosisDateSmallerThan (d1 d2 : DiagnosisDate) : Bool :=
  if d1.Year < d2.Year then true
  else if d1.Year > d2.Year then false
  else if d1.Month < d2.Month then true
  else if d1.Month > d2.Month then false
  else if d1.Day < d2.Day then true
  else false

/-- `DiagnosisDateToFloat` — the real-valued projection
`year + month/12 + day/365`, modelled exactly in `ℚ`. -/
def DiagnosisDateToFloat (d : DiagnosisDate) : ℚ :=
  (d.Year : ℚ) + (d.Month : ℚ) / 12 + (d.Day : ℚ) / 365

/-- `Diagnosis` — `(PID, DID, date)`. -/
structure Diagnosis where
  PID : Int
  DID : ℕ
  Date : DiagnosisDate
  deriving DecidableEq, Repr

/-- `Patient` — fields as in the Go `Patient` struct. -/
structure Patient where
  PID : Int
  PIDString : String
  YOB : Int
  CohortAge : ℕ
  Sex : ℕ
  Diagnoses : List Diagnosis
  EOIDate : Option DiagnosisDate
  DeathDate : Option DiagnosisDate
  Region : ℕ
  deriving DecidableEq, Repr

/-- `memberPatient` — membership of a patient in a list, compared by `PID`. -/
def memberPatient (p : Patient) (plist : List Patient) : Bool :=
  plist.any (fun p2 => p2.PID == p.PID)

/-- `AppendPatient` — append a patient unless already a member (by `PID`). -/
def AppendPatient (plist : List Patient) (p : Patient) : List Patient :=
  if memberPatient p plist then plist else plist ++ [p]

/-- `Cohort` — a stratum.  `DCtr` and `DPatients` are the per-DID counters
and patient lists (Go slices of length `nofDiagnoses`, modelled as total
functions from the DID). -/
structure Cohort where
  AgeGroup : ℕ
  Sex : ℕ
  Region : ℕ
  NofPatients : ℕ
  NofDiagnoses : ℕ
  DCtr : ℕ → ℕ
  DPatients : ℕ → List Patient
  Patients : List Patient

/-- The Go zero-value cohort, used to model an out-of-range slice read. -/
def emptyCohort : Cohort :=
  { AgeGroup := 0, Sex := 0, Region := 0, NofPatients := 0, NofDiagnoses := 0,
    DCtr := fun _ => 0, DPatients := fun _ => [], Patients := [] }

/-- `Pair` — an ordered diagnosis pair. -/
structure Pair where
  First : ℕ
  Second : ℕ
  deriving DecidableEq, Repr

/-- `Trajectory` — diagnosis chain, per-transition support, per-step patient
lists, and the working map from patient to an index in its diagnosis list
(a Go `map[*Patient]int`, modelled as an association list in insertion
order). -/
structure Trajectory where
  Diagnoses : List ℕ
  PatientNumbers : List ℕ
  Patients : List (List Patient)
  TrajMap : List (Patient × Int)
  ID : Int
  Cluster : Int
  deriving DecidableEq, Repr

/-- `Experiment` — the analysis context.  The `D×D` matrices are modelled as
total functions of the two DIDs; `NameMap` is the DID-indexed list of
medical names (`len(exp.NameMap)` = its length). -/
structure Experiment where
  NofAgeGroups : ℕ
  NofRegions : ℕ
  Level : ℕ
  NofDiagnosisCodes : ℕ
  DxDRR : ℕ → ℕ → ℚ
  DxDPatients : ℕ → ℕ → List Patient
  DPatients : ℕ → List Patient
  Cohorts : List Cohort
  Name : String
  NameMap : List String
  Trajectories : List Trajectory
  Pairs : List Pair
  IdMap : List String
  MCtr : ℕ
  FCtr : ℕ

/-- `MakeDxDRR` — `size × size` relative-risk matrix, all cells `1.0`.
(The Go function allocates a dense `size×size` array; the function model
carries the same information for in-range indices.) -/
def MakeDxDRR (size : ℕ) : ℕ → ℕ → ℚ := fun _ _ => 1

/-- `MakeDxDPatients` — `size × size` matrix of empty patient lists. -/
def MakeDxDPatients (size : ℕ) : ℕ → ℕ → List Patient := fun _ _ => []

/-- Pointwise update of one cell of a `D×D` function-matrix (models the Go
assignment `m[i][j] = v`). -/
def setCell {α : Type} (m : ℕ → ℕ → α) (i j : ℕ) (v : α) : ℕ → ℕ → α :=
  fun a b => if a = i ∧ b = j then v else m a b

/-! ## Cohort index (`cohortIndex`, `selectCohort`, `makeCohorts`,
`InitializeCohorts`, `MergeCohorts`) -/

/-- `cohortIndex` — the stratum index `sex·nofAgegroups + ageGroup`.
The `nofRegions` and `region` arguments are accepted and ignored, exactly
as in the source. -/
def cohortIndex (nofAgegroups nofRegions sex ageGroup region : ℕ) : ℕ :=
  sex * nofAgegroups + ageGroup

/-- `selectCohort` — pick the cohort at `cohortIndex` from the cohort
vector (Go slice indexing; out-of-range reads modelled by the zero
cohort). -/
def selectCohort (cohorts : List Cohort) (nofAgeGroups nofRegions sex ageGroup region : ℕ) :
    Cohort :=
  (cohorts.get? (cohortIndex nofAgeGroups nofRegions sex ageGroup region)).getD emptyCohort

/-- One step of the cohort-allocation loop of `makeCohorts`: state is
`(sex, ageGroup, region)`; emits the cohort for the current state and the
next state. -/
def makeCohortsStep (nofAgeGroups : ℕ) (femaleCohortIndex i : ℕ)
    (st : ℕ × ℕ × ℕ) : Cohort × (ℕ × ℕ × ℕ) :=
  let st1 := if femaleCohortIndex ≤ i ∧ st.1 ≠ Female then (Female, 0, 0) else st
  let cohort : Cohort :=
    { AgeGroup := st1.2.1, Sex := st1.1, Region := st1.2.2, NofPatients := 0,
      NofDiagnoses := 0, DCtr := fun _ => 0, DPatients := fun _ => [],
      Patients := [] }
  let st2 :=
    if st1.2.1 = nofAgeGroups - 1 then (st1.1, 0, st1.2.2 + 1)
    else (st1.1, st1.2.1 + 1, st1.2.2)
  (cohort, st2)

/-- `makeCohorts` — allocate the `nofAgeGroups * 2` empty cohorts, male
cohorts first, then female, cycling the age group and region exactly as the
Go loop does. -/
def makeCohorts (nofAgeGroups nofRegions nofDiagnoses : ℕ) : List Cohort :=
  let nofCohorts := nofAgeGroups * 2
  let femaleCohortIndex := nofCohorts / 2
  (List.range nofCohorts).foldl
    (fun acc i =>
      let r := makeCohortsStep nofAgeGroups femaleCohortIndex i acc.2
      (acc.1 ++ [r.1], r.2))
    ([], (Male, 0, 0)) |>.1

/-- The per-patient diagnosis-counting loop of `InitializeCohorts`: walk the
patient's diagnoses, and for every DID not counted yet for this patient,
bump `DCtr`/`NofDiagnoses` and append the patient to `DPatients[DID]`.
The `seen` component models the `diagnosisCountedForPatient` map. -/
def countPatientDiagnoses (patient : Patient) (cohort : Cohort) : Cohort :=
  (patient.Diagnoses.foldl
    (fun (acc : Cohort × List ℕ) d1 =>
      if d1.DID ∈ acc.2 then acc
      else
        ({ acc.1 with
            DCtr := Function.update acc.1.DCtr d1.DID (acc.1.DCtr d1.DID + 1),
            NofDiagnoses := acc.1.NofDiagnoses + 1,
            DPatients :=
              Function.update acc.1.DPatients d1.DID
                (acc.1.DPatients d1.DID ++ [patient]) },
          d1.DID :: acc.2))
    (cohort, [])).1

/-- Adding one patient to its cohort in `InitializeCohorts`: bump the
patient counter, record the patient, then count its distinct diagnoses. -/
def initializeCohortsAddPatient (nofAgegroups nofRegions : ℕ)
    (cohorts : List Cohort) (patient : Patient) : List Cohort :=
  let idx := cohortIndex nofAgegroups nofRegions patient.Sex patient.CohortAge patient.Region
  let cohort := (cohorts.get? idx).getD emptyCohort
  let cohort := { cohort with
    NofPatients := cohort.NofPatients + 1,
    Patients := cohort.Patients ++ [patient] }
  cohorts.set idx (countPatientDiagnoses patient cohort)

/-- `InitializeCohorts` — create the cohorts and populate them by visiting
every patient once.  The `patients` list is the iteration order of the Go
`patients.PIDMap` map. -/
def InitializeCohorts (patients : List Patient)
    (nofAgegroups nofRegions nofDiagnosisCodes : ℕ) : List Cohort :=
  patients.foldl (initializeCohortsAddPatient nofAgegroups nofRegions)
    (makeCohorts nofAgegroups nofRegions nofDiagnosisCodes)

/-- `MergeCohorts` — merge a list of cohorts into its first element:
summed counters, concatenated per-DID patient lists. -/
def MergeCohorts (cohorts : List Cohort) : Cohort :=
  let cohort1 := (cohorts.get? 0).getD emptyCohort
  cohorts.tail.foldl
    (fun c1 c2 =>
      { c1 with
          NofPatients := c1.NofPatients + c2.NofPatients,
          NofDiagnoses := c1.NofDiagnoses + c2.NofDiagnoses,
          DCtr := fun i => c1.DCtr i + c2.DCtr i,
          DPatients := fun i => c1.DPatients i ++ c2.DPatients i })
    cohort1

/-! ## Matched sampler (`selectRandomPatientsWithoutShuffle`,
`selectRandomPatientsFromSimilarCohorts`, `probNotExposed`) -/

/-- `patientsToIdMap` — the set of PIDs of a patient list (a Go
`map[int]bool`, modelled as its deduplicated key list). -/
def patientsToIdMap (patients : List Patient) : List Int :=
  patients.foldl (fun acc p => if p.PID ∈ acc then acc else acc ++ [p.PID]) []

/-- The scanning loop of `selectRandomPatientsWithoutShuffle`.  `bits k` is
the value of the `k`-th call of `fastrand.Uint32n(2) > 0`.  State:
collected patients, remaining random skips, next random index. -/
def selectRandomLoop (bits : ℕ → Bool) (ctr : ℕ) (excl : List Int) :
    List Patient → List Patient → ℕ → ℕ → List Patient
  | [], acc, _, _ => acc
  | p :: rest, acc, skips, k =>
    if acc.length = ctr then acc
    else if p.PID ∈ excl then selectRandomLoop bits ctr excl rest acc skips k
    else if 0 < skips then
      if bits k then selectRandomLoop bits ctr excl rest (acc ++ [p]) skips (k + 1)
      else selectRandomLoop bits ctr excl rest acc (skips - 1) (k + 1)
    else selectRandomLoop bits ctr excl rest (acc ++ [p]) skips k

/-- `selectRandomPatientsWithoutShuffle` — select `ctr` patients from
`patients` avoiding `patientsToExclude`, without shuffling: walk the list
in stored order, spending at most
`max 0 (len patients − len exclude − ctr)` random skips. -/
def selectRandomPatientsWithoutShuffle (bits : ℕ → Bool) (patients : List Patient)
    (ctr : ℕ) (patientsToExclude : List Int) : List Patient :=
  let maxRandSkips := ((patients.length : Int) - patientsToExclude.length - ctr).toNat
  selectRandomLoop bits ctr patientsToExclude patients [] maxRandSkips 0

/-- `selectRandomPatientsFromSimilarCohorts` — per stratum, select as many
control patients as the input list has in that stratum.  `bits i` is the
random stream used for cohort `i`. -/
def selectRandomPatientsFromSimilarCohorts (bits : ℕ → ℕ → Bool) (exp : Experiment)
    (patients : List Patient) (pids : List Int) : List Patient :=
  ((List.range exp.Cohorts.length).map
    (fun i =>
      let ps := patients.filter
        (fun p => cohortIndex exp.NofAgeGroups exp.NofRegions p.Sex p.CohortAge p.Region == i)
      selectRandomPatientsWithoutShuffle (bits i)
        ((exp.Cohorts.get? i).getD emptyCohort).Patients ps.length pids)).flatten

/-- `probNotExposed` — average, over the `d1`-exposed patients, of the
per-stratum fraction of patients that have `d2` but are not `d1`-exposed. -/
def probNotExposed (exp : Experiment) (d1Patients : List Patient)
    (d1IDs : List Int) (d2 : ℕ) : ℚ :=
  let d2Ctr :=
    d1Patients.foldl
      (fun acc p =>
        let idx := cohortIndex exp.NofAgeGroups exp.NofRegions p.Sex p.CohortAge p.Region
        let cohort := (exp.Cohorts.get? idx).getD emptyCohort
        let ctr := ((cohort.DPatients d2).filter (fun p2 => p2.PID ∉ d1IDs)).length
        acc + (ctr : ℚ) / (cohort.NofPatients : ℚ))
      0
  d2Ctr / (d1Patients.length : ℚ)

/-! ## Per-patient pair counting (`countPatientDiagnosis`,
`countPatientDiagnosisPair`, `countPatientTrajectory`) -/

/-- `countPatientDiagnosis` — `1` if the patient has a diagnosis with the
given DID, else `0`. -/
def countPatientDiagnosis (p : Patient) (did : ℕ) : ℕ :=
  if p.Diagnoses.any (fun d => d.DID == did) then 1 else 0

/-- The scan of `countPatientDiagnosisPair` after the first `d1`
occurrence: the first index (relative to the scanned suffix) of a `d2`
diagnosis whose elapsed time from `d1Date` lies in `[minTime, maxTime]`. -/
def findPairIdx (ds : List Diagnosis) (d2 : ℕ) (d1Date : DiagnosisDate)
    (minTime maxTime : ℚ) : Option ℕ :=
  ds.findIdx? (fun d =>
    d.DID == d2 &&
      (let timeBetween := DiagnosisDateToFloat d.Date - DiagnosisDateToFloat d1Date
       decide (timeBetween ≤ maxTime) && decide (minTime ≤ timeBetween)))

/-- `countPatientDiagnosisPair` — `(1, i)` when the patient has `d1`
followed (strictly after the first `d1` position) by a `d2` within the
time window, `(0, −1)` when not; `none` models the Go `panic` raised when
`d1` is absent from the patient's diagnosis list.  Note that the returned
index `i` is relative to the suffix `p.Diagnoses[d1Index+1:]`, exactly as
in the source (`for i, d := range p.Diagnoses[d1Index+1:]`). -/
def countPatientDiagnosisPair (p : Patient) (d1 d2 : ℕ) (minTime maxTime : ℚ) :
    Option (ℕ × Int) :=
  match p.Diagnoses.findIdx? (fun d => d.DID == d1) with
  | none => none
  | some d1Index =>
    let d1Date := ((p.Diagnoses.get? d1Index).getD
      { PID := 0, DID := 0, Date := { Year := 0, Month := 0, Day := 0 } }).Date
    match findPairIdx (p.Diagnoses.drop (d1Index + 1)) d2 d1Date minTime maxTime with
    | some i => some (1, (i : Int))
    | none => some (0, -1)

/-- `countPatientTrajectory` — starting **at** index `idx` (inclusive) in
the patient's diagnosis list, the first (absolute) index of a `d2`
diagnosis within the window of the date at `idx`; `−1` when none.
Go indexes `p.Diagnoses[idx]` directly; an out-of-range `idx` is modelled
by the zero diagnosis. -/
def countPatientTrajectory (p : Patient) (idx : Int) (d2 : ℕ) (minTime maxTime : ℚ) :
    Int :=
  let d1Date := ((p.Diagnoses.get? idx.toNat).getD
    { PID := 0, DID := 0, Date := { Year := 0, Month := 0, Day := 0 } }).Date
  match findPairIdx (p.Diagnoses.drop idx.toNat) d2 d1Date minTime maxTime with
  | some i => (idx.toNat : Int) + i
  | none => -1

/-! ## Statistical kernel (`utils/binomial.go`)

The transcendental `float64` arithmetic (the Lanczos series of `gammaLn`,
the `exp`/`log` combination forming `bt`, the continued fraction of
`betaCf`) has no exact rational counterpart and is abstracted as function
parameters: `core` for the numeric value of `gammaLn` on an argument that
passes its checks, `btv` for the value of `bt`, and `cf` for `betaCf` —
the latter returns `Except` because `betaCf` panics when the continued
fraction has not converged after `itmax` iterations.  All control flow is
modelled exactly: every argument check that calls `log.Panic`, the
`x ∈ {0, 1}` shortcut that skips the three `gammaLn` calls and their
panics, the branch on the exact comparison `x < (a+1)/(a+b+2)`, the
`k ≥ n` panic, the `k = 0` shortcut and the reduction to
`betaIncomplete(k, 1+(n−k), p)`; `Except.error` models `log.Panic`, and
the first error wins, as the first Go panic does.  (For an argument that
passes both checks `gammaLn` itself is total: its reflection branch for
`x < 1` recurses on `1 + (1 − x) ∈ (1, 2)`, which passes both checks
again, and `math.Log`/`math.Sin` never panic in Go.) -/

/-- `gammaLn(x)` — panics when `x ≤ 0` and when `x > 1e302`; otherwise
total, with the numeric value abstracted as `core`. -/
def gammaLn (core : ℚ → ℚ) (x : ℚ) : Except String ℚ :=
  if x ≤ 0 then Except.error "Error: argument to gammaLn must be positive"
  else if x > 10 ^ 302 then Except.error "Error: argument to gammLn too large"
  else Except.ok (core x)

/-- `betaIncomplete(a, b, x)` — panics when `x ∉ [0, 1]`; computes `bt`
(zero when `x ∈ {0, 1}`, otherwise through three `gammaLn` calls made in
source order, each of which may panic); then combines `bt` with one
`betaCf` call selected by the comparison `x < (a+1)/(a+b+2)`. -/
def betaIncomplete (core : ℚ → ℚ) (btv : ℚ → ℚ → ℚ → ℚ)
    (cf : ℚ → ℚ → ℚ → Except String ℚ) (a b x : ℚ) : Except String ℚ :=
  if x < 0 ∨ x > 1 then Except.error "Error: x must be between 0.0 and 1.0"
  else
    match (if x = 0 ∨ x = 1 then Except.ok 0
           else match gammaLn core (a + b) with
             | Except.error e => Except.error e
             | Except.ok _ =>
               match gammaLn core a with
               | Except.error e => Except.error e
               | Except.ok _ =>
                 match gammaLn core b with
                 | Except.error e => Except.error e
                 | Except.ok _ => Except.ok (btv a b x) : Except String ℚ) with
    | Except.error e => Except.error e
    | Except.ok bt =>
      if x < (a + 1) / (a + b + 2) then
        match cf a b x with
        | Except.error e => Except.error e
        | Except.ok c => Except.ok (bt * c / a)
      else
        match cf b a (1 - x) with
        | Except.error e => Except.error e
        | Except.ok c => Except.ok (1 - bt * c / b)

/-- `BinomialCdf(p, n, k)` — panics when `k ≥ n`; returns `1.0` when
`k = 0`; otherwise reduces to `betaIncomplete(k, 1+(n−k), p)`. -/
def BinomialCdf (core : ℚ → ℚ) (btv : ℚ → ℚ → ℚ → ℚ)
    (cf : ℚ → ℚ → ℚ → Except String ℚ) (p : ℚ) (n k : Int) : Except String ℚ :=
  if k ≥ n then Except.error "Error: cannot have more events (k) than trials (n)"
  else if k = 0 then Except.ok 1
  else betaIncomplete core btv cf (k : ℚ) ((1 + (n - k) : Int) : ℚ) p

/-! ## Pair selector (`selectDiagnosisPairs`)

The selector consults `utils.BinomialCdf(0.5, occurs+occursReverse,
maxOccurs)`; since the numeric value of that float computation is not
representable exactly, the selector is parametrised by the total function
`binomCdf` standing for it. -/

/-- The body of the double loop of `selectDiagnosisPairs` for one index
pair `(i, j)` (`i ≤ j`): the list (empty or a singleton) of pairs it
appends. -/
def selectPairStep (binomCdf : ℚ → ℕ → ℕ → ℚ) (exp : Experiment)
    (minPatients : ℕ) (minRR : ℚ) (i j : ℕ) : List Pair :=
  let occurs := (exp.DxDPatients i j).length
  let occursReverse := (exp.DxDPatients j i).length
  let RR := exp.DxDRR i j
  let RRReverse := exp.DxDRR j i
  if i ≠ j then
    if minPatients ≤ occurs ∧ minRR < RR ∧ minPatients ≤ occursReverse ∧ minRR < RRReverse then
      let maxOccurs := if occursReverse < occurs then occurs else occursReverse
      let maxIndices := if occursReverse < occurs then Pair.mk i j else Pair.mk j i
      if binomCdf 0.5 (occurs + occursReverse) maxOccurs < 0.05 then [maxIndices] else []
    else if minPatients ≤ occurs ∧ minRR < RR then [Pair.mk i j]
    else if minPatients ≤ occursReverse ∧ minRR < RRReverse then [Pair.mk j i]
    else []
  else []

/-- The index pairs `(i, j)` with `0 ≤ i ≤ j < n`, in the iteration order
of the double loop of `selectDiagnosisPairs`. -/
def upperIndexPairs (n : ℕ) : List (ℕ × ℕ) :=
  (List.range n).flatMap (fun i => (List.range (n - i)).map (fun k => (i, i + k)))

/-- `selectDiagnosisPairs` — select the ordered diagnosis pairs used to
build trajectories: pairs with at least `minPatients` supporting patients
and relative risk above `minRR`, with the binomial-tail asymmetry test
deciding between two qualifying directions. -/
def selectDiagnosisPairs (binomCdf : ℚ → ℕ → ℕ → ℚ) (exp : Experiment)
    (minPatients : ℕ) (minRR : ℚ) : List Pair :=
  (upperIndexPairs exp.NameMap.length).flatMap
    (fun ij => selectPairStep binomCdf exp minPatients minRR ij.1 ij.2)

/-! ## RR engine (`InitializeExperimentRelativeRiskRatios`)

The engine is modelled as a sequential fold over the ordered pairs
`(d1, d2)`; every call of `fastrand` inside the matched sampler is fed
from the oracle `bits d1 d2 k i`, the stream for the `k`-th control draw
of pair `(d1, d2)` in cohort `i`.  `none` models the `panic` in
`countPatientDiagnosisPair`. -/

/-- The exposed-group counting loop of the RR engine: for every exposed
patient, test `d1 → d2` within the window; accumulate the count and the
`d1→d2` patient list (`AppendPatient` deduplicates).  `none` models the
panic when a patient lacks `d1`. -/
def rrExposedLoop (d1 d2 : ℕ) (minTime maxTime : ℚ) :
    List Patient → ℕ → List Patient → Option (ℕ × List Patient)
  | [], a, followed => some (a, followed)
  | p :: rest, a, followed =>
    match countPatientDiagnosisPair p d1 d2 minTime maxTime with
    | none => none
    | some (ctr, _) =>
      rrExposedLoop d1 d2 minTime maxTime rest (a + ctr)
        (if 0 < ctr then AppendPatient followed p else followed)

/-- The `k`-th control group drawn for one ordered pair: a matched random
selection from similar cohorts, excluding the exposed PIDs. -/
def rrControlDraw (bits : ℕ → ℕ → ℕ → Bool) (exp : Experiment)
    (d1Exposed : List Patient) (ids : List Int) (k : ℕ) : List Patient :=
  selectRandomPatientsFromSimilarCohorts (bits k) exp d1Exposed ids

/-- Number of patients of a control group having any `d2` diagnosis. -/
def rrCountD2 (control : List Patient) (d2 : ℕ) : ℕ :=
  control.foldl (fun acc p => acc + countPatientDiagnosis p d2) 0

/-- The Monte-Carlo loop of the RR engine: over `iter` iterations, count
in the `i`-th control group the patients with `d2`; the first component
accumulates `pval` (iterations where that count reaches the exposed
count `a`), the second the total unexposed count. -/
def rrIterCounts (bits : ℕ → ℕ → ℕ → Bool) (exp : Experiment)
    (d1Exposed : List Patient) (ids : List Int) (d2 a iter : ℕ) : ℕ × ℕ :=
  (List.range iter).foldl
    (fun acc i =>
      let d2Ctr := rrCountD2 (rrControlDraw bits exp d1Exposed ids i) d2
      ((if a ≤ d2Ctr then acc.1 + 1 else acc.1), acc.2 + d2Ctr))
    (0, 0)

/-- The relative risk computed in the write branch of the RR engine:
`RR = (a/(a+b)) / (c/(c+d))` with `b = |E| − a` and `d = |E| − c`
(integer subtractions as in the source). -/
def rrValue (lenE a c : ℕ) : ℚ :=
  let aq : ℚ := (a : ℚ)
  let bq : ℚ := (((lenE : Int) - (a : Int)) : ℚ)
  let cq : ℚ := (c : ℚ)
  let dq : ℚ := (((lenE : Int) - (c : Int)) : ℚ)
  (aq / (aq + bq)) / (cq / (cq + dq))

/-- The body of the RR engine for one ordered pair `(d1, d2)`: draw a
control group, count the exposed `d1→d2` patients, run the pre-filter,
the Monte-Carlo loop and the p-value gate, and write the RR cell and the
`d1→d2` patient list when every gate passes. -/
def rrPairStep (bits : ℕ → ℕ → ℕ → Bool) (minTime maxTime : ℚ) (iter : ℕ)
    (d1 : ℕ) (d1Exposed : List Patient) (ids : List Int)
    (exp : Experiment) (d2 : ℕ) : Option Experiment :=
  let notd1Exposed := rrControlDraw bits exp d1Exposed ids 0
  if d1Exposed.length = notd1Exposed.length then
    match rrExposedLoop d1 d2 minTime maxTime d1Exposed 0 [] with
    | none => none
    | some (a, followed) =>
      let probd2Notd1Exposed := probNotExposed exp d1Exposed ids d2
      let probd2d1Exposed := (a : ℚ) / (d1Exposed.length : ℚ)
      if probd2Notd1Exposed ≥ probd2d1Exposed then some exp
      else
        let counts := rrIterCounts bits exp d1Exposed ids d2 a iter
        let pval : ℚ := (counts.1 : ℚ) / (iter : ℚ)
        let c : ℕ := counts.2 / iter
        if pval > 0.001 then some exp
        else
          some { exp with
            DxDRR := setCell exp.DxDRR d1 d2 (rrValue d1Exposed.length a c),
            DxDPatients := setCell exp.DxDPatients d1 d2 followed }
  else some exp

/-- The inner (`d2`) loop of the RR engine over a list of `d2` indices. -/
def rrInnerLoop (bits : ℕ → ℕ → ℕ → ℕ → Bool) (minTime maxTime : ℚ) (iter : ℕ)
    (d1 : ℕ) (d1Exposed : List Patient) (ids : List Int) :
    List ℕ → Experiment → Option Experiment
  | [], exp => some exp
  | d2 :: rest, exp =>
    match rrPairStep (bits d2) minTime maxTime iter d1 d1Exposed ids exp d2 with
    | none => none
    | some e2 => rrInnerLoop bits minTime maxTime iter d1 d1Exposed ids rest e2

/-- The outer (`d1`) loop of the RR engine: skip rows with an empty
exposed set, otherwise run the inner loop over all `d2`. -/
def rrOuterLoop (bits : ℕ → ℕ → ℕ → ℕ → ℕ → Bool) (minTime maxTime : ℚ) (iter : ℕ) :
    List ℕ → Experiment → Option Experiment
  | [], exp => some exp
  | d1 :: rest, exp =>
    let d1Exposed := exp.DPatients d1
    let ids := patientsToIdMap d1Exposed
    if 0 < d1Exposed.length then
      match rrInnerLoop (bits d1) minTime maxTime iter d1 d1Exposed ids
          (List.range exp.NofDiagnosisCodes) exp with
      | none => none
      | some e2 => rrOuterLoop bits minTime maxTime iter rest e2
    else rrOuterLoop bits minTime maxTime iter rest exp

/-- `InitializeExperimentRelativeRiskRatios` — fill `DxDRR` and
`DxDPatients` for every ordered diagnosis pair of the experiment. -/
def InitializeExperimentRelativeRiskRatios (bits : ℕ → ℕ → ℕ → ℕ → ℕ → Bool)
    (exp : Experiment) (minTime maxTime : ℚ) (iter : ℕ) : Option Experiment :=
  rrOuterLoop bits minTime maxTime iter (List.range exp.NofDiagnosisCodes) exp

/-! ## Trajectory builder (`extendTrajectory`, `BuildTrajectories`)

`parallel.RangeReduce` is modelled by the single-range schedule: one
worker processing the whole seed stack.  The Go worker pops from the
front of its local stack and appends to its back. -/

/-- `extendTrajectory` — map every patient of the working map that can
reach diagnosis `d` within the window (searching from its recorded index)
to the index of the match. -/
def extendTrajectory (currentT : Trajectory) (d : ℕ) (minTime maxTime : ℚ) :
    List (Patient × Int) :=
  currentT.TrajMap.filterMap
    (fun pi =>
      let idx2 := countPatientTrajectory pi.1 pi.2 d minTime maxTime
      if idx2 ≠ -1 then some (pi.1, idx2) else none)

/-- The last diagnosis of a trajectory (`currentT.Diagnoses[len−1]`). -/
def lastDiagnosis (t : Trajectory) : ℕ := t.Diagnoses.getLast?.getD 0

/-- One iteration of the extension loop of `BuildTrajectories` for one
candidate pair.  State: the current trajectory (whose `TrajMap` the source
reassigns in place on every surviving extension), the emitted list, and
the pushed list (`ctr = 0` in the source is equivalent to an empty pushed
list). -/
def buildStep (exp : Experiment) (minPatients maxLength : ℕ) (minTime maxTime : ℚ)
    (acc : Trajectory × List Trajectory × List Trajectory) (pair : Pair) :
    Trajectory × List Trajectory × List Trajectory :=
  let currentT := acc.1
  let lastT := lastDiagnosis currentT
  if pair.First = lastT ∧ minPatients ≤ (exp.DxDPatients lastT pair.Second).length then
    let extendedTrajMap := extendTrajectory currentT pair.Second minTime maxTime
    if minPatients < extendedTrajMap.length then
      let currentT2 := { currentT with TrajMap := extendedTrajMap }
      let patients := extendedTrajMap.map (fun pi => pi.1)
      let newT : Trajectory :=
        { Diagnoses := currentT.Diagnoses ++ [pair.Second],
          PatientNumbers := currentT.PatientNumbers ++ [patients.length],
          Patients := currentT.Patients ++ [patients],
          TrajMap := [], ID := 0, Cluster := 0 }
      if maxLength ≤ newT.Diagnoses.length then (currentT2, acc.2.1 ++ [newT], acc.2.2)
      else (currentT2, acc.2.1, acc.2.2 ++ [newT])
    else acc
  else acc

/-- Processing of one popped trajectory: try every candidate pair, then —
when no extension was pushed and the length reaches `minLength` — emit the
trajectory itself.  Returns `(emitted, pushed)`. -/
def processOne (exp : Experiment) (pairs : List Pair)
    (minPatients maxLength minLength : ℕ) (minTime maxTime : ℚ) (t : Trajectory) :
    List Trajectory × List Trajectory :=
  let r := pairs.foldl (buildStep exp minPatients maxLength minTime maxTime) (t, [], [])
  if r.2.2 = [] ∧ minLength ≤ r.1.Diagnoses.length then (r.2.1 ++ [r.1], [])
  else (r.2.1, r.2.2)

/-- Weight of a stack entry for the termination measure of the worker
loop. -/
def trajWeight (pairsLen maxLength : ℕ) (t : Trajectory) : ℕ :=
  (pairsLen + 1) ^ (maxLength - t.Diagnoses.length)

/-- Termination measure of the worker loop: summed weights of the stack. -/
def stackMeasure (pairsLen maxLength : ℕ) (stack : List Trajectory) : ℕ :=
  (stack.map (trajWeight pairsLen maxLength)).sum

/-- Pushed trajectories of `processOne` are one diagnosis longer than the
popped one and still below `maxLength`. -/
theorem buildStep_pushed_aux (exp : Experiment) (minPatients maxLength : ℕ)
    (minTime maxTime : ℚ) (l : List Pair)
    (acc : Trajectory × List Trajectory × List Trajectory) :
    (l.foldl (buildStep exp minPatients maxLength minTime maxTime) acc).1.Diagnoses
        = acc.1.Diagnoses ∧
    (l.foldl (buildStep exp minPatients maxLength minTime maxTime) acc).2.2.length
        ≤ acc.2.2.length + l.length ∧
    ∀ p ∈ (l.foldl (buildStep exp minPatients maxLength minTime maxTime) acc).2.2,
      p ∈ acc.2.2 ∨
        (p.Diagnoses.length = acc.1.Diagnoses.length + 1 ∧ p.Diagnoses.length < maxLength) := by
  induction l generalizing acc with
  | nil => exact ⟨rfl, by simp, fun p hp => Or.inl hp⟩
  | cons pr rest ih =>
    have hstep :
        (buildStep exp minPatients maxLength minTime maxTime acc pr).1.Diagnoses
            = acc.1.Diagnoses ∧
        ((buildStep exp minPatients maxLength minTime maxTime acc pr).2.2 = acc.2.2 ∨
          ∃ q, (buildStep exp minPatients maxLength minTime maxTime acc pr).2.2
                = acc.2.2 ++ [q] ∧
            q.Diagnoses.length = acc.1.Diagnoses.length + 1 ∧
            q.Diagnoses.length < maxLength) := by
      simp only [buildStep]
      split_ifs with h1 h2 h3
      · exact ⟨rfl, Or.inl rfl⟩
      · refine ⟨rfl, Or.inr ⟨_, rfl, by simp, ?_⟩⟩
        simp only [List.length_append, List.length_singleton] at h3 ⊢
        omega
      · exact ⟨rfl, Or.inl rfl⟩
      · exact ⟨rfl, Or.inl rfl⟩
    obtain ⟨hd, hp⟩ := hstep
    have := ih (buildStep exp minPatients maxLength minTime maxTime acc pr)
    rw [List.foldl_cons]
    refine ⟨this.1.trans hd, ?_, ?_⟩
    · rcases hp with h | ⟨q, hq, _⟩
      · have := this.2.1
        rw [h] at this
        simpa using this.trans (by omega)
      · have := this.2.1
        rw [hq] at this
        simp at this
        simpa using this.trans (by omega)
    · intro p hmem
      rcases this.2.2 p hmem with h | h
      · rcases hp with h2 | ⟨q, hq, hlen, hlt⟩
        · rw [h2] at h
          exact Or.inl h
        · rw [hq] at h
          rcases List.mem_append.mp h with h3 | h3
          · exact Or.inl h3
          · right
            rw [List.mem_singleton.mp h3]
            exact ⟨hlen, hlt⟩
      · rw [hd] at h
        exact Or.inr h

/-- The pushed list of `processOne` has strictly smaller total weight than
the popped trajectory. -/
theorem processOne_measure (exp : Experiment) (pairs : List Pair)
    (minPatients maxLength minLength : ℕ) (minTime maxTime : ℚ) (t : Trajectory) :
    stackMeasure pairs.length maxLength
        (processOne exp pairs minPatients maxLength minLength minTime maxTime t).2
      < trajWeight pairs.length maxLength t := by
  have haux := buildStep_pushed_aux exp minPatients maxLength minTime maxTime pairs (t, [], [])
  simp only [processOne]
  split_ifs
  · have hpos : 0 < trajWeight pairs.length maxLength t :=
      Nat.pos_pow_of_pos _ (by omega)
    simpa [stackMeasure] using hpos
  · set r := pairs.foldl (buildStep exp minPatients maxLength minTime maxTime) (t, [], [])
      with hr
    have hlen : r.2.2.length ≤ pairs.length := by simpa using haux.2.1
    have hmem : ∀ p ∈ r.2.2,
        p.Diagnoses.length = t.Diagnoses.length + 1 ∧ p.Diagnoses.length < maxLength := by
      intro p hp
      rcases haux.2.2 p hp with h | h
      · simp at h
      · simpa using h
    rcases List.eq_nil_or_concat r.2.2 with hemp | ⟨_, p0, hne⟩
    · rw [hemp]
      have hpos : 0 < trajWeight pairs.length maxLength t :=
        Nat.pos_pow_of_pos _ (by omega)
      simpa [stackMeasure] using hpos
    · have hp0 : p0 ∈ r.2.2 := by rw [hne]; simp
      have hlt : t.Diagnoses.length + 1 < maxLength := by
        have := hmem p0 hp0
        omega
      set C : ℕ := (pairs.length + 1) ^ (maxLength - t.Diagnoses.length - 1) with hC
      have hCpos : 0 < C := Nat.pos_pow_of_pos _ (by omega)
      have hwt : trajWeight pairs.length maxLength t = (pairs.length + 1) * C := by
        have hexp : maxLength - t.Diagnoses.length = (maxLength - t.Diagnoses.length - 1) + 1 := by
          omega
        rw [trajWeight, hexp, pow_succ, Nat.mul_comm]
      have hle : stackMeasure pairs.length maxLength r.2.2 ≤ r.2.2.length * C := by
        have := List.sum_le_card_nsmul (r.2.2.map (trajWeight pairs.length maxLength)) C
          (by
            intro x hx
            rcases List.mem_map.mp hx with ⟨p, hp, hxp⟩
            have hexp : maxLength - p.Diagnoses.length = maxLength - t.Diagnoses.length - 1 := by
              have := hmem p hp
              omega
            rw [← hxp, trajWeight, hexp])
        simpa [stackMeasure, smul_eq_mul] using this
      calc stackMeasure pairs.length maxLength r.2.2
          ≤ r.2.2.length * C := hle
        _ ≤ pairs.length * C := Nat.mul_le_mul_right _ hlen
        _ < (pairs.length + 1) * C := by
            exact Nat.mul_lt_mul_of_lt_of_le (Nat.lt_succ_self pairs.length)
              (le_refl C) hCpos
        _ = trajWeight pairs.length maxLength t := hwt.symm

/-- The worker loop of `BuildTrajectories`: pop a trajectory from the
front of the stack, process it, queue its pushed extensions at the back,
and collect everything it emitted. -/
def buildLoop (exp : Experiment) (pairs : List Pair)
    (minPatients maxLength minLength : ℕ) (minTime maxTime : ℚ) :
    List Trajectory → List Trajectory
  | [] => []
  | t :: rest =>
    let r := processOne exp pairs minPatients maxLength minLength minTime maxTime t
    r.1 ++ buildLoop exp pairs minPatients maxLength minLength minTime maxTime (rest ++ r.2)
termination_by stack => stackMeasure pairs.length maxLength stack
decreasing_by
  have h := processOne_measure exp pairs minPatients maxLength minLength minTime maxTime t
  simp only [stackMeasure, List.map_append, List.sum_append, List.map_cons,
    List.sum_cons] at h ⊢
  omega

/-- The seed trajectory of `BuildTrajectories` for one selected pair:
diagnoses `[First, Second]`, the supporting patients of the pair, and the
working map populated via `countPatientDiagnosisPair` (whose returned
index is stored as-is). -/
def seedTrajectory (exp : Experiment) (minTime maxTime : ℚ) (pair : Pair) : Trajectory :=
  { Diagnoses := [pair.First, pair.Second],
    PatientNumbers := [(exp.DxDPatients pair.First pair.Second).length],
    Patients := [exp.DxDPatients pair.First pair.Second],
    TrajMap :=
      (exp.DxDPatients pair.First pair.Second).map
        (fun p =>
          (p, ((countPatientDiagnosisPair p pair.First pair.Second minTime maxTime).getD
            (0, -1)).2)),
    ID := 0, Cluster := 0 }

/-- A trajectory filter (a predicate over trajectories). -/
def TrajectoryFilter : Type := Trajectory → Bool

/-- `BuildTrajectories` — select the pairs, seed one trajectory per pair,
run the worker loop, and keep the trajectories accepted by every filter. -/
def BuildTrajectories (binomCdf : ℚ → ℕ → ℕ → ℚ) (exp : Experiment)
    (minPatients maxLength minLength : ℕ) (minTime maxTime minRR : ℚ)
    (filters : List TrajectoryFilter) : List Trajectory :=
  let pairs := selectDiagnosisPairs binomCdf exp minPatients minRR
  let stack := pairs.map (seedTrajectory exp minTime maxTime)
  let trajectories := buildLoop exp pairs minPatients maxLength minLength minTime maxTime stack
  trajectories.filter (fun traj => filters.all (fun filter => filter traj))

/-! ## Trajectory clusterer (`cluster/clustering.go`) -/

/-- Adjacent-transition count of `d1 → d2` in one diagnosis chain (the
inner loop of `computeTotalOccurencesPairs`). -/
def countAdj (d1 d2 : ℕ) : List ℕ → ℕ
  | a :: b :: rest => (if a = d1 ∧ b = d2 then 1 else 0) + countAdj d1 d2 (b :: rest)
  | _ => 0

/-- `computeTotalOccurencesPairs` — per diagnosis the number of positions
it occupies across the retained trajectories, and per ordered pair the
number of adjacent transitions, exactly as accumulated by the Go fold. -/
def computeTotalOccurencesPairs (exp : Experiment) : (ℕ → ℕ) × (ℕ → ℕ → ℕ) :=
  (fun d => (exp.Trajectories.map (fun t => t.Diagnoses.count d)).sum,
   fun d1 d2 => (exp.Trajectories.map (fun t => countAdj d1 d2 t.Diagnoses)).sum)

/-- The Jaccard coefficient the loop body of `computeJaccardIndexForPairs`
computes for the pair `(d1, d2)`:
`pairTotal / (firstTotal + secondTotal − pairTotal)`.  `none` models the
IEEE `NaN` produced by the float division `0.0/0.0` (when the denominator
is zero the numerator is provably zero too for counts coming from
`computeTotalOccurencesPairs`, so `NaN` is the only non-finite outcome). -/
def jaccardCellValue (exp : Experiment) (d1 d2 : ℕ) : Option ℚ :=
  let counts := computeTotalOccurencesPairs exp
  let pairTotal : ℚ := (counts.2 d1 d2 : ℚ)
  let firstTotal : ℚ := (counts.1 d1 : ℚ)
  let secondTotal : ℚ := (counts.1 d2 : ℚ)
  if firstTotal + secondTotal - pairTotal = 0 ∧ pairTotal = 0 then none
  else some (pairTotal / (firstTotal + secondTotal - pairTotal))

/-- `computeJaccardIndexForPairs` — the `D×D` float matrix initialised to
`−1.0`, with the Jaccard coefficient filled in for every selected pair. -/
def computeJaccardIndexForPairs (exp : Experiment) : ℕ → ℕ → Option ℚ :=
  exp.Pairs.foldl
    (fun index pair =>
      setCell index pair.First pair.Second (jaccardCellValue exp pair.First pair.Second))
    (fun _ _ => some (-1))

/-- `convertTrajectoryPairsToAbcFormat` — the emitted weighted edge list:
one record per matrix cell whose coefficient passes `coeff >= 0` (a `NaN`
cell fails that float test). -/
def convertTrajectoryPairsToAbcFormat (exp : Experiment) : List (ℕ × ℕ × ℚ) :=
  let jaccardIndex := computeJaccardIndexForPairs exp
  (List.range exp.NofDiagnosisCodes).flatMap
    (fun d1 =>
      (List.range exp.NofDiagnosisCodes).filterMap
        (fun d2 =>
          match jaccardIndex d1 d2 with
          | some coeff => if 0 ≤ coeff then some (d1, d2, coeff) else none
          | none => none))

/-! ## Persistence of the RR matrix (`SaveRRMatrix`, `SaveDxDPatients`,
`LoadRRMatrix`, `LoadDxDPatients`)

A file is modelled as the list of its tab-separated records.  The float
formatting `strconv.FormatFloat(RR, 'E', -1, 64)` round-trips exactly
through `strconv.ParseFloat`, so an RR record carries the value itself. -/

/-- Splitting a character list on `','` (the semantics of Go
`strings.Split(s, ",")`: splitting the empty string yields one empty
piece). -/
def splitCommaChars : List Char → List (List Char)
  | [] => [[]]
  | c :: rest =>
    match splitCommaChars rest with
    | [] => [[]]
    | g :: gs => if c = ',' then [] :: g :: gs else (c :: g) :: gs

/-- Go `strings.Split(s, ",")`. -/
def splitComma (s : String) : List String :=
  (splitCommaChars s.toList).map (fun cs => String.mk cs)

/-- The comma-joining loop of `SaveDxDPatients` (append each id, a comma
after every id but the last). -/
def joinComma : List String → String
  | [] => ""
  | s :: rest => rest.foldl (fun acc x => acc ++ "," ++ x) s

/-- The Go zero-value patient (the value observed when `pMap.PIDMap[pid]`
misses; the loader stores it without dereferencing it). -/
def zeroPatient : Patient :=
  { PID := 0, PIDString := "", YOB := 0, CohortAge := 0, Sex := 0,
    Diagnoses := [], EOIDate := none, DeathDate := none, Region := 0 }

/-- `PatientMap` — patient lookup tables parsed from the input. -/
structure PatientMap where
  PIDStringMap : List (String × Int)
  Ctr : ℕ
  PIDMap : List (Int × Patient)
  MaleCtr : ℕ
  FemaleCtr : ℕ

/-- Reversal of the experiment name map (`nameMapReversed`); a missing
name yields the Go zero value `0`.  When a name occurs twice the last
index wins, as when Go re-assigns the map entry. -/
def reverseLookup (nm : List String) (s : String) : ℕ :=
  match nm.reverse.findIdx? (fun x => x == s) with
  | some k => nm.length - 1 - k
  | none => 0

/-- `SaveRRMatrix` — one record `(name_i, name_j, RR[i][j])` per cell of
the `D×D` matrix. -/
def SaveRRMatrix (exp : Experiment) : List (String × String × ℚ) :=
  (List.range exp.NofDiagnosisCodes).flatMap
    (fun i =>
      (List.range exp.NofDiagnosisCodes).map
        (fun j => (exp.NameMap.getD i "", exp.NameMap.getD j "", exp.DxDRR i j)))

/-- `LoadRRMatrix` — resolve both names of every record through the
reversed name map and store the RR value. -/
def LoadRRMatrix (exp : Experiment) (records : List (String × String × ℚ)) : Experiment :=
  records.foldl
    (fun e record =>
      let d1 := reverseLookup exp.NameMap record.1
      let d2 := reverseLookup exp.NameMap record.2.1
      { e with DxDRR := setCell e.DxDRR d1 d2 record.2.2 })
    exp

/-- `SaveDxDPatients` — one record `(name_i, name_k, pid1,pid2,…)` per
cell.  The guard in the source is `len(js) > 0` where `js` is the whole
row (of length `D`), not the cell, so every cell of a non-empty row is
written — including cells whose patient list is empty, which produce an
empty patient string. -/
def SaveDxDPatients (exp : Experiment) : List (String × String × String) :=
  (List.range exp.NofDiagnosisCodes).flatMap
    (fun i =>
      (List.range exp.NofDiagnosisCodes).filterMap
        (fun k =>
          if 0 < exp.NofDiagnosisCodes then
            some (exp.NameMap.getD i "", exp.NameMap.getD k "",
              joinComma ((exp.DxDPatients i k).map (fun p => p.PIDString)))
          else none))

/-- `LoadDxDPatients` — reset every cell to the empty list, then for every
record split the patient string on `","` and append, for every piece, the
patient found through `PIDStringMap`/`PIDMap` (with Go zero values when a
lookup misses; splitting the empty string yields the single piece `""`). -/
def LoadDxDPatients (exp : Experiment) (pMap : PatientMap)
    (records : List (String × String × String)) : Experiment :=
  let exp0 := { exp with DxDPatients := fun _ _ => ([] : List Patient) }
  records.foldl
    (fun e record =>
      let d1 := reverseLookup exp.NameMap record.1
      let d2 := reverseLookup exp.NameMap record.2.1
      let pidStrings := splitComma record.2.2
      let ps := pidStrings.map
        (fun pidString =>
          let pid := (((pMap.PIDStringMap.find? (fun kv => kv.1 == pidString)).map
            (fun kv => kv.2)).getD 0)
          (((pMap.PIDMap.find? (fun kv => kv.1 == pid)).map (fun kv => kv.2)).getD
            zeroPatient))
      { e with DxDPatients := setCell e.DxDPatients d1 d2 (e.DxDPatients d1 d2 ++ ps) })
    exp0

/-! ## Claim C9 — control flow of `BinomialCdf` -/

/-- For `0 < x < 1` and a nonpositive first beta parameter,
`betaIncomplete` aborts: the `bt` computation is not skipped and one of
its first two `gammaLn` calls panics (the positivity check fires on `a`,
unless the call on `a + b` already panicked). -/
theorem betaIncomplete_error_nonpos (core : ℚ → ℚ) (btv : ℚ → ℚ → ℚ → ℚ)
    (cf : ℚ → ℚ → ℚ → Except String ℚ) (a b x : ℚ)
    (hx0 : 0 < x) (hx1 : x < 1) (ha : a ≤ 0) :
    ∃ e, betaIncomplete core btv cf a b x = Except.error e := by
  rw [betaIncomplete, if_neg (by push_neg; exact ⟨hx0.le, hx1.le⟩)]
  rw [if_neg (by push_neg; exact ⟨ne_of_gt hx0, ne_of_lt hx1⟩)]
  cases hgab : gammaLn core (a + b) with
  | error e => exact ⟨e, rfl⟩
  | ok v =>
    have hga : gammaLn core a
        = Except.error "Error: argument to gammaLn must be positive" := by
      rw [gammaLn, if_pos ha]
    rw [hga]
    exact ⟨_, rfl⟩

/-- For `0 ≤ x ≤ 1`, positive beta parameters within `gammaLn`'s domain
and a converging continued fraction, `betaIncomplete` returns a value. -/
theorem betaIncomplete_ok (core : ℚ → ℚ) (btv : ℚ → ℚ → ℚ → ℚ)
    (cf : ℚ → ℚ → ℚ → Except String ℚ) (a b x : ℚ)
    (hx0 : 0 ≤ x) (hx1 : x ≤ 1) (ha : 0 < a) (hb : 0 < b)
    (hab : a + b ≤ 10 ^ 302)
    (hcf : ∀ u v w, ∃ r, cf u v w = Except.ok r) :
    ∃ r, betaIncomplete core btv cf a b x = Except.ok r := by
  have hga : gammaLn core (a + b) = Except.ok (core (a + b)) := by
    rw [gammaLn, if_neg (not_le.mpr (by linarith)), if_neg (not_lt.mpr hab)]
  have haa : gammaLn core a = Except.ok (core a) := by
    rw [gammaLn, if_neg (not_le.mpr ha), if_neg (not_lt.mpr (by linarith))]
  have hbb : gammaLn core b = Except.ok (core b) := by
    rw [gammaLn, if_neg (not_le.mpr hb), if_neg (not_lt.mpr (by linarith))]
  rw [betaIncomplete, if_neg (by push_neg; exact ⟨hx0, hx1⟩)]
  by_cases hx01 : x = 0 ∨ x = 1
  · rw [if_pos hx01]
    dsimp only
    by_cases hbr : x < (a + 1) / (a + b + 2)
    · obtain ⟨r, hr⟩ := hcf a b x
      rw [if_pos hbr, hr]
      exact ⟨_, rfl⟩
    · obtain ⟨r, hr⟩ := hcf b a (1 - x)
      rw [if_neg hbr, hr]
      exact ⟨_, rfl⟩
  · rw [if_neg hx01, hga]
    dsimp only
    rw [haa]
    dsimp only
    rw [hbb]
    dsimp only
    by_cases hbr : x < (a + 1) / (a + b + 2)
    · obtain ⟨r, hr⟩ := hcf a b x
      rw [if_pos hbr, hr]
      exact ⟨_, rfl⟩
    · obtain ⟨r, hr⟩ := hcf b a (1 - x)
      rw [if_neg hbr, hr]
      exact ⟨_, rfl⟩

/-- **C9** (amended).  For every probability `p` (`0 ≤ p ≤ 1`), float
oracles and integers `n`, `k`: `BinomialCdf(p, n, k)` aborts when
`k ≥ n`; returns `1.0` when `k = 0 < n`; when `0 < k < n` it reduces to
`betaIncomplete(k, 1+(n−k), p)` and — provided `n + 1` is within
`gammaLn`'s magnitude bound and the `betaCf` continued fraction converges
— returns a value; but it also aborts (inside `gammaLn`) when `k < 0` and
`0 < p < 1`, even where `k < n`, refuting the original "aborts iff
`k ≥ n`". -/
theorem binomialCdf_control_flow (core : ℚ → ℚ) (btv : ℚ → ℚ → ℚ → ℚ)
    (cf : ℚ → ℚ → ℚ → Except String ℚ) (p : ℚ) (n k : Int)
    (hp0 : 0 ≤ p) (hp1 : p ≤ 1) :
    (n ≤ k → ∃ e, BinomialCdf core btv cf p n k = Except.error e) ∧
    (k = 0 → k < n → BinomialCdf core btv cf p n k = Except.ok 1) ∧
    (0 < k → k < n →
      BinomialCdf core btv cf p n k
          = betaIncomplete core btv cf (k : ℚ) ((1 + (n - k) : Int) : ℚ) p ∧
      ((n : ℚ) + 1 ≤ 10 ^ 302 → (∀ u v w, ∃ r, cf u v w = Except.ok r) →
        ∃ r, BinomialCdf core btv cf p n k = Except.ok r)) ∧
    (k < 0 → 0 < p → p < 1 →
      ∃ e, BinomialCdf core btv cf p n k = Except.error e) := by
  refine ⟨?_, ?_, ?_, ?_⟩
  · intro hge
    exact ⟨_, by rw [BinomialCdf, if_pos hge]⟩
  · intro hk hlt
    rw [BinomialCdf, if_neg (by omega), if_pos hk]
  · intro hpos hlt
    have hred : BinomialCdf core btv cf p n k
        = betaIncomplete core btv cf (k : ℚ) ((1 + (n - k) : Int) : ℚ) p := by
      rw [BinomialCdf, if_neg (by omega), if_neg (by omega)]
    refine ⟨hred, ?_⟩
    intro hbound hcf
    rw [hred]
    refine betaIncomplete_ok core btv cf _ _ _ hp0 hp1 ?_ ?_ ?_ hcf
    · exact_mod_cast hpos
    · exact_mod_cast (by omega : (0 : Int) < 1 + (n - k))
    · push_cast
      linarith
  · intro hneg hq0 hq1
    by_cases hge : n ≤ k
    · exact ⟨_, by rw [BinomialCdf, if_pos hge]⟩
    · rw [BinomialCdf, if_neg (by omega), if_neg (by omega)]
      exact betaIncomplete_error_nonpos core btv cf _ _ _ hq0 hq1
        (by exact_mod_cast hneg.le)

/-- **C9** (counterexample to the original claim).  `BinomialCdf(1/2, 5,
−2)` passes the `k ≥ n` guard (`−2 < 5`) yet aborts inside `gammaLn`,
whose positivity check fires on the argument `a = k = −2` — here under
trivial float oracles with an everywhere-converging continued fraction
(the abort is forced by the argument checks alone).  So "aborts iff
`k ≥ n`" fails in the only-if direction. -/
theorem binomialCdf_aborts_below_n :
    (-2 : Int) < 5 ∧
    ∃ e, BinomialCdf (fun _ => (0 : ℚ)) (fun _ _ _ => (0 : ℚ))
      (fun _ _ _ => Except.ok 0) (1/2) 5 (-2) = Except.error e := by
  refine ⟨by norm_num, ?_⟩
  rw [BinomialCdf, if_neg (by omega), if_neg (by omega)]
  exact betaIncomplete_error_nonpos (fun _ => (0 : ℚ)) (fun _ _ _ => (0 : ℚ))
    (fun _ _ _ => Except.ok 0) _ _ _ (by norm_num) (by norm_num) (by norm_num)

/-- Witness for the amended C9 at `p = 1/2`, `n = 5`, `k = 0` and `k = 2`,
with trivial float oracles and a converging continued fraction. -/
theorem binomialCdf_control_flow_witness :
    BinomialCdf (fun _ => (0 : ℚ)) (fun _ _ _ => (0 : ℚ))
        (fun _ _ _ => Except.ok 0) (1/2) 5 0 = Except.ok 1 ∧
    ∃ r, BinomialCdf (fun _ => (0 : ℚ)) (fun _ _ _ => (0 : ℚ))
        (fun _ _ _ => Except.ok 0) (1/2) 5 2 = Except.ok r := by
  constructor
  · exact (binomialCdf_control_flow (fun _ => 0) (fun _ _ _ => 0)
      (fun _ _ _ => Except.ok 0) (1/2) 5 0 (by norm_num) (by norm_num)).2.1
      rfl (by omega)
  · exact ((binomialCdf_control_flow (fun _ => 0) (fun _ _ _ => 0)
      (fun _ _ _ => Except.ok 0) (1/2) 5 2 (by norm_num) (by norm_num)).2.2.1
      (by omega) (by omega)).2 (by norm_num) (fun u v w => ⟨0, rfl⟩)

/-! ## Claim C8 — the stratum index ignores the region everywhere -/

/-- **C8.** The stratum index is `sex·A + age-bucket`, independent of the
region argument and of the number of regions; and the same index is what
drives cohort selection (`selectCohort`, used by cohort construction),
matched control sampling, and the unexposed-prevalence estimate — all
three are invariant under arbitrary reassignment of patient regions and
of the region count. -/
theorem cohortIndex_ignores_region :
    (∀ nofAgeGroups nofRegions sex ageGroup region : ℕ,
      cohortIndex nofAgeGroups nofRegions sex ageGroup region
        = sex * nofAgeGroups + ageGroup) ∧
    (∀ cohorts nofAgeGroups nofRegions nofRegions2 sex ageGroup region region2,
      selectCohort cohorts nofAgeGroups nofRegions sex ageGroup region
        = selectCohort cohorts nofAgeGroups nofRegions2 sex ageGroup region2) ∧
    (∀ (bits : ℕ → ℕ → Bool) (exp : Experiment) (patients : List Patient)
        (pids : List Int) (nofRegions2 : ℕ) (f : Patient → ℕ),
      selectRandomPatientsFromSimilarCohorts bits { exp with NofRegions := nofRegions2 }
          (patients.map (fun p => { p with Region := f p })) pids
        = selectRandomPatientsFromSimilarCohorts bits exp patients pids) ∧
    (∀ (exp : Experiment) (d1Patients : List Patient) (d1IDs : List Int) (d2 : ℕ)
        (nofRegions2 : ℕ) (f : Patient → ℕ),
      probNotExposed { exp with NofRegions := nofRegions2 }
          (d1Patients.map (fun p => { p with Region := f p })) d1IDs d2
        = probNotExposed exp d1Patients d1IDs d2) := by
  refine ⟨fun _ _ _ _ _ => rfl, fun _ _ _ _ _ _ _ _ => rfl, ?_, ?_⟩
  · intro bits exp patients pids nofRegions2 f
    simp only [selectRandomPatientsFromSimilarCohorts, cohortIndex]
    congr 1
    apply List.map_congr_left
    intro i _
    congr 1
    rw [List.filter_map]
    rw [List.length_map]
    exact congrArg List.length (List.filter_congr (fun p _ => rfl))
  · intro exp d1Patients d1IDs d2 nofRegions2 f
    simp only [probNotExposed, cohortIndex, List.foldl_map, List.length_map]

/-! ## Claims C4 and C5 — the pair selector -/

/-- A pair belongs to the unordered family `{i, j}`. -/
def sameFamily (i j : ℕ) (p : Pair) : Bool :=
  (p.First == i && p.Second == j) || (p.First == j && p.Second == i)

theorem sameFamily_comm (i j : ℕ) (p : Pair) : sameFamily i j p = sameFamily j i p := by
  simp only [sameFamily]
  exact Bool.or_comm _ _

/-- Every pair appended by one loop iteration is one of the two
orientations of its index pair. -/
theorem selectPairStep_subset (binomCdf : ℚ → ℕ → ℕ → ℚ) (exp : Experiment)
    (minPatients : ℕ) (minRR : ℚ) (i j : ℕ) :
    ∀ q ∈ selectPairStep binomCdf exp minPatients minRR i j,
      q = Pair.mk i j ∨ q = Pair.mk j i := by
  intro q hq
  simp only [selectPairStep] at hq
  split_ifs at hq <;> simp_all <;> split_ifs at hq <;> simp_all

/-- One loop iteration appends at most one pair. -/
theorem selectPairStep_length (binomCdf : ℚ → ℕ → ℕ → ℚ) (exp : Experiment)
    (minPatients : ℕ) (minRR : ℚ) (i j : ℕ) :
    (selectPairStep binomCdf exp minPatients minRR i j).length ≤ 1 := by
  simp only [selectPairStep]
  split_ifs <;> simp

/-- Every pair appended by one loop iteration has distinct components and
satisfies the support and RR thresholds. -/
theorem selectPairStep_qualifies (binomCdf : ℚ → ℕ → ℕ → ℚ) (exp : Experiment)
    (minPatients : ℕ) (minRR : ℚ) (i j : ℕ) :
    ∀ q ∈ selectPairStep binomCdf exp minPatients minRR i j,
      q.First ≠ q.Second ∧
      minPatients ≤ (exp.DxDPatients q.First q.Second).length ∧
      minRR < exp.DxDRR q.First q.Second := by
  intro q hq
  simp only [selectPairStep] at hq
  split_ifs at hq <;> simp_all <;> omega

/-- Membership in the loop index pairs. -/
theorem mem_upperIndexPairs (n i j : ℕ) :
    (i, j) ∈ upperIndexPairs n ↔ i ≤ j ∧ j < n := by
  simp only [upperIndexPairs, List.mem_flatMap, List.mem_map, List.mem_range]
  constructor
  · rintro ⟨a, ha, k, hk, hik⟩
    obtain ⟨rfl, rfl⟩ := Prod.mk.injEq .. ▸ hik
    omega
  · rintro ⟨hij, hjn⟩
    exact ⟨i, by omega, j - i, by omega, by simp [Nat.add_sub_cancel' hij]⟩

/-- The loop visits every index pair at most once. -/
theorem upperIndexPairs_nodup (n : ℕ) : (upperIndexPairs n).Nodup := by
  rw [upperIndexPairs, List.nodup_flatMap]
  constructor
  · intro i _
    exact (List.nodup_range _).map (fun a b hab => by
      have := Prod.mk.injEq .. ▸ hab
      omega)
  · refine (List.pairwise_lt_range n).imp ?_
    intro a b hab
    intro x hxa hxb
    simp only [List.mem_map, List.mem_range] at hxa hxb
    obtain ⟨ka, _, hka⟩ := hxa
    obtain ⟨kb, _, hkb⟩ := hxb
    have h1 : x.1 = a := by rw [← hka]
    have h2 : x.1 = b := by rw [← hkb]
    omega

/-- Filtering a concatenation of blocks when every block is filtered
away. -/
theorem filter_flatMap_nil {α β : Type} (l : List α) (f : α → List β) (q : β → Bool)
    (h : ∀ y ∈ l, (f y).filter q = []) : (l.flatMap f).filter q = [] := by
  induction l with
  | nil => simp
  | cons y rest ih =>
    rw [List.flatMap_cons, List.filter_append, h y (by simp),
      ih (fun z hz => h z (by simp [hz]))]
    rfl

/-- Filtering a concatenation of blocks when exactly one block survives
the filter. -/
theorem filter_flatMap_single {α β : Type} [DecidableEq α] (l : List α) (f : α → List β)
    (q : β → Bool) (x0 : α) (hc : l.count x0 = 1)
    (hzero : ∀ y ∈ l, y ≠ x0 → (f y).filter q = []) :
    (l.flatMap f).filter q = (f x0).filter q := by
  induction l with
  | nil => simp at hc
  | cons y rest ih =>
    rw [List.flatMap_cons, List.filter_append]
    by_cases hy : y = x0
    · rw [hy]
      rw [hy, List.count_cons_self] at hc
      have hnot : x0 ∉ rest := by
        intro hmem
        have := List.count_pos_iff.mpr hmem
        omega
      rw [filter_flatMap_nil rest f q
        (fun z hz => hzero z (by simp [hz]) (fun h => hnot (h ▸ hz))),
        List.append_nil]
    · rw [hzero y (by simp) hy, List.nil_append]
      exact ih (by rwa [List.count_cons_of_ne (fun h => hy h.symm)] at hc)
        (fun z hz hne => hzero z (by simp [hz]) hne)

/-- An iteration `(i', j')` of the selector contributes nothing to the
family of a distinct normalized index pair `(i, j)` with `i < j`. -/
theorem selectPairStep_other_family (binomCdf : ℚ → ℕ → ℕ → ℚ) (exp : Experiment)
    (minPatients : ℕ) (minRR : ℚ) (i j a b : ℕ) (hij : i < j) (hab : a ≤ b)
    (hne : (a, b) ≠ (i, j)) :
    (selectPairStep binomCdf exp minPatients minRR a b).filter (sameFamily i j) = [] := by
  rw [List.filter_eq_nil_iff]
  intro q hq
  rcases selectPairStep_subset binomCdf exp minPatients minRR a b q hq with rfl | rfl
  · simp only [sameFamily, Bool.or_eq_true, Bool.and_eq_true, beq_iff_eq]
    rintro (⟨h1, h2⟩ | ⟨h1, h2⟩)
    · exact hne (Prod.ext h1 h2)
    · omega
  · simp only [sameFamily, Bool.or_eq_true, Bool.and_eq_true, beq_iff_eq]
    rintro (⟨h1, h2⟩ | ⟨h1, h2⟩)
    · omega
    · exact hne (Prod.ext h2 h1)

/-- The filtered output of the whole selector for an in-range family
`{i, j}` with `i < j` equals the filtered output of the iteration
`(i, j)` alone. -/
theorem selectDiagnosisPairs_family (binomCdf : ℚ → ℕ → ℕ → ℚ) (exp : Experiment)
    (minPatients : ℕ) (minRR : ℚ) (i j : ℕ) (hij : i < j) (hj : j < exp.NameMap.length) :
    (selectDiagnosisPairs binomCdf exp minPatients minRR).filter (sameFamily i j)
      = (selectPairStep binomCdf exp minPatients minRR i j).filter (sameFamily i j) := by
  rw [selectDiagnosisPairs]
  apply filter_flatMap_single _ _ _ (i, j)
    (List.count_eq_one_of_mem (upperIndexPairs_nodup _)
      ((mem_upperIndexPairs _ i j).mpr ⟨by omega, hj⟩))
  intro y hy hne
  have hy2 := (mem_upperIndexPairs _ y.1 y.2).mp (by simpa using hy)
  exact selectPairStep_other_family binomCdf exp minPatients minRR i j y.1 y.2 hij hy2.1
    (by simpa using hne)

/-- An out-of-range family receives no pair at all. -/
theorem selectDiagnosisPairs_family_out (binomCdf : ℚ → ℕ → ℕ → ℚ) (exp : Experiment)
    (minPatients : ℕ) (minRR : ℚ) (i j : ℕ) (hij : i < j)
    (hj : exp.NameMap.length ≤ j) :
    (selectDiagnosisPairs binomCdf exp minPatients minRR).filter (sameFamily i j) = [] := by
  rw [selectDiagnosisPairs]
  apply filter_flatMap_nil
  intro y hy
  have hy2 := (mem_upperIndexPairs _ y.1 y.2).mp (by simpa using hy)
  exact selectPairStep_other_family binomCdf exp minPatients minRR i j y.1 y.2 hij hy2.1
    (by
      intro hcon
      have h1 := congrArg Prod.fst hcon
      have h2 := congrArg Prod.snd hcon
      simp only at h1 h2
      omega)

/-- **C4.** When both directions of an unordered pair `{i, j}` satisfy
the support and RR thresholds and the two patient counts differ, the
selector computes the binomial tail `BinomialCdf(0.5, occurs + occursReverse,
max occurs occursReverse)` and emits exactly the dominant direction when
that value is `< 0.05`, and neither direction otherwise. -/
theorem selectDiagnosisPairs_asymmetry (binomCdf : ℚ → ℕ → ℕ → ℚ) (exp : Experiment)
    (minPatients : ℕ) (minRR : ℚ) (i j : ℕ) (hij : i < j) (hj : j < exp.NameMap.length)
    (hocc : minPatients ≤ (exp.DxDPatients i j).length)
    (hRR : minRR < exp.DxDRR i j)
    (hoccR : minPatients ≤ (exp.DxDPatients j i).length)
    (hRRR : minRR < exp.DxDRR j i)
    (hne : (exp.DxDPatients i j).length ≠ (exp.DxDPatients j i).length) :
    (selectDiagnosisPairs binomCdf exp minPatients minRR).filter (sameFamily i j)
      = if binomCdf 0.5 ((exp.DxDPatients i j).length + (exp.DxDPatients j i).length)
            (max (exp.DxDPatients i j).length (exp.DxDPatients j i).length) < 0.05
        then [if (exp.DxDPatients j i).length < (exp.DxDPatients i j).length
              then Pair.mk i j else Pair.mk j i]
        else [] := by
  rw [selectDiagnosisPairs_family binomCdf exp minPatients minRR i j hij hj]
  have hmax : (if (exp.DxDPatients j i).length < (exp.DxDPatients i j).length
      then (exp.DxDPatients i j).length else (exp.DxDPatients j i).length)
      = max (exp.DxDPatients i j).length (exp.DxDPatients j i).length := by
    rcases Nat.lt_or_ge (exp.DxDPatients j i).length (exp.DxDPatients i j).length with h | h
    · rw [if_pos h, Nat.max_eq_left (by omega)]
    · rw [if_neg (by omega), Nat.max_eq_right (by omega)]
  simp only [selectPairStep]
  rw [if_pos (show i ≠ j by omega), if_pos ⟨hocc, hRR, hoccR, hRRR⟩, hmax]
  split_ifs with htest hdom <;> simp [sameFamily]

/-- **C5.** Every pair stored by the pair selector is an ordered pair
`(a, b)` with `a ≠ b`, support at least `minPatients` and RR above
`minRR`; and for each unordered pair of diagnoses at most one of its two
directions is ever selected. -/
theorem selectDiagnosisPairs_invariants (binomCdf : ℚ → ℕ → ℕ → ℚ) (exp : Experiment)
    (minPatients : ℕ) (minRR : ℚ) :
    (∀ p ∈ selectDiagnosisPairs binomCdf exp minPatients minRR,
      p.First ≠ p.Second ∧
      minPatients ≤ (exp.DxDPatients p.First p.Second).length ∧
      minRR < exp.DxDRR p.First p.Second) ∧
    (∀ i j, ¬(Pair.mk i j ∈ selectDiagnosisPairs binomCdf exp minPatients minRR ∧
              Pair.mk j i ∈ selectDiagnosisPairs binomCdf exp minPatients minRR)) := by
  constructor
  · intro p hp
    rw [selectDiagnosisPairs, List.mem_flatMap] at hp
    obtain ⟨ij, _, hmem⟩ := hp
    exact selectPairStep_qualifies binomCdf exp minPatients minRR ij.1 ij.2 p hmem
  · intro i j hboth
    obtain ⟨h1, h2⟩ := hboth
    have hij : i ≠ j := by
      rw [selectDiagnosisPairs, List.mem_flatMap] at h1
      obtain ⟨ij, _, hmem⟩ := h1
      exact (selectPairStep_qualifies binomCdf exp minPatients minRR ij.1 ij.2 _ hmem).1
    -- both directions lie in the same family filter, whose length is at most 1
    have key : ∀ a b : ℕ, a < b →
        ((selectDiagnosisPairs binomCdf exp minPatients minRR).filter
          (sameFamily a b)).length ≤ 1 := by
      intro a b hab
      rcases Nat.lt_or_ge b exp.NameMap.length with hb | hb
      · rw [selectDiagnosisPairs_family binomCdf exp minPatients minRR a b hab hb]
        exact (List.length_filter_le _ _).trans
          (selectPairStep_length binomCdf exp minPatients minRR a b)
      · rw [selectDiagnosisPairs_family_out binomCdf exp minPatients minRR a b hab hb]
        simp
    have hgen : ∀ a b : ℕ, a < b →
        ¬(Pair.mk a b ∈ selectDiagnosisPairs binomCdf exp minPatients minRR ∧
          Pair.mk b a ∈ selectDiagnosisPairs binomCdf exp minPatients minRR) := by
      rintro a b hab ⟨ha, hb⟩
      have hfa : Pair.mk a b ∈
          (selectDiagnosisPairs binomCdf exp minPatients minRR).filter (sameFamily a b) :=
        List.mem_filter.mpr ⟨ha, by simp [sameFamily]⟩
      have hfb : Pair.mk b a ∈
          (selectDiagnosisPairs binomCdf exp minPatients minRR).filter (sameFamily a b) :=
        List.mem_filter.mpr ⟨hb, by simp [sameFamily]⟩
      have hne : Pair.mk a b ≠ Pair.mk b a := by
        intro h
        have := congrArg Pair.First h
        simp at this
        omega
      have h2mem : Pair.mk b a ∈
          ((selectDiagnosisPairs binomCdf exp minPatients minRR).filter
            (sameFamily a b)).erase (Pair.mk a b) :=
        (List.mem_erase_of_ne (fun h => hne h.symm)).mpr hfb
      have hlen := List.length_erase_of_mem hfa
      have hpos := List.length_pos_of_mem h2mem
      have := key a b hab
      omega
    rcases Nat.lt_or_ge i j with h | h
    · exact hgen i j h ⟨h1, h2⟩
    · exact hgen j i (by omega) ⟨h2, h1⟩

/-- Witness for C4: a two-code experiment where both directions qualify
(supports 3 and 1), with a binomial-tail stub below 0.05: exactly the
dominant direction `(0, 1)` is selected. -/
theorem selectDiagnosisPairs_asymmetry_witness :
    ((selectDiagnosisPairs (fun _ _ _ => 0)
        { NofAgeGroups := 1, NofRegions := 1, Level := 0, NofDiagnosisCodes := 2,
          DxDRR := fun _ _ => 2, DxDPatients := fun i j =>
            if i = 0 ∧ j = 1 then [zeroPatient, zeroPatient, zeroPatient]
            else if i = 1 ∧ j = 0 then [zeroPatient] else [],
          DPatients := fun _ => [], Cohorts := [], Name := "w", NameMap := ["a", "b"],
          Trajectories := [], Pairs := [], IdMap := [], MCtr := 0, FCtr := 0 }
        1 1).filter (sameFamily 0 1)) = [Pair.mk 0 1] := by
  rw [selectDiagnosisPairs_asymmetry (fun _ _ _ => 0) _ 1 1 0 1 (by omega) (by simp)
    (by simp) (by norm_num) (by simp) (by norm_num) (by simp)]
  norm_num

/-- Witness for C5 at the same concrete experiment. -/
theorem selectDiagnosisPairs_invariants_witness :
    (Pair.mk 0 1).First ≠ (Pair.mk 0 1).Second ∧
    ¬(Pair.mk 0 1 ∈ selectDiagnosisPairs (fun _ _ _ => 0)
        { NofAgeGroups := 1, NofRegions := 1, Level := 0, NofDiagnosisCodes := 2,
          DxDRR := fun _ _ => 2, DxDPatients := fun i j =>
            if i = 0 ∧ j = 1 then [zeroPatient, zeroPatient, zeroPatient]
            else if i = 1 ∧ j = 0 then [zeroPatient] else [],
          DPatients := fun _ => [], Cohorts := [], Name := "w", NameMap := ["a", "b"],
          Trajectories := [], Pairs := [], IdMap := [], MCtr := 0, FCtr := 0 }
        1 1 ∧
      Pair.mk 1 0 ∈ selectDiagnosisPairs (fun _ _ _ => 0)
        { NofAgeGroups := 1, NofRegions := 1, Level := 0, NofDiagnosisCodes := 2,
          DxDRR := fun _ _ => 2, DxDPatients := fun i j =>
            if i = 0 ∧ j = 1 then [zeroPatient, zeroPatient, zeroPatient]
            else if i = 1 ∧ j = 0 then [zeroPatient] else [],
          DPatients := fun _ => [], Cohorts := [], Name := "w", NameMap := ["a", "b"],
          Trajectories := [], Pairs := [], IdMap := [], MCtr := 0, FCtr := 0 }
        1 1) := by
  constructor
  · simp
  · exact (selectDiagnosisPairs_invariants (fun _ _ _ => 0) _ 1 1).2 0 1

/-! ## Claim C7 — Jaccard edge list -/

/-- An adjacent `d1 → d2` transition consumes a `d1` position: the
transition count of a chain is bounded by its `d1` occurrence count. -/
theorem countAdj_le_count_fst (d1 d2 : ℕ) (l : List ℕ) :
    countAdj d1 d2 l ≤ l.count d1 := by
  induction l with
  | nil => simp [countAdj]
  | cons a rest ih =>
    cases rest with
    | nil => simp [countAdj]
    | cons b rest2 =>
      rw [countAdj]
      by_cases ha : a = d1
      · subst ha
        rw [List.count_cons_self]
        split_ifs with h1 <;> omega
      · rw [List.count_cons_of_ne (fun h => ha h.symm)]
        split_ifs with h1
        · exact absurd h1.1 ha
        · omega

/-- An adjacent `d1 → d2` transition consumes a `d2` position in the tail:
the transition count is bounded by the `d2` occurrence count of the
tail. -/
theorem countAdj_le_count_tail (d1 d2 : ℕ) (l : List ℕ) :
    countAdj d1 d2 l ≤ l.tail.count d2 := by
  induction l with
  | nil => simp [countAdj]
  | cons a rest ih =>
    cases rest with
    | nil => simp [countAdj]
    | cons b rest2 =>
      rw [countAdj]
      simp only [List.tail_cons] at ih ⊢
      by_cases hb : b = d2
      · subst hb
        rw [List.count_cons_self]
        split_ifs with h1 <;> omega
      · rw [List.count_cons_of_ne (fun h => hb h.symm)]
        split_ifs with h1
        · exact absurd h1.2 hb
        · omega

/-- The transition count is bounded by the `d2` occurrence count. -/
theorem countAdj_le_count_snd (d1 d2 : ℕ) (l : List ℕ) :
    countAdj d1 d2 l ≤ l.count d2 := by
  refine (countAdj_le_count_tail d1 d2 l).trans ?_
  cases l with
  | nil => simp
  | cons a rest =>
    rw [List.tail_cons, List.count_cons]
    split_ifs <;> omega

/-- Summed over the retained trajectories: the pair total is bounded by
each of the two diagnosis totals. -/
theorem pairCounts_le_diagnosisCounts (exp : Experiment) (d1 d2 : ℕ) :
    (computeTotalOccurencesPairs exp).2 d1 d2 ≤ (computeTotalOccurencesPairs exp).1 d1 ∧
    (computeTotalOccurencesPairs exp).2 d1 d2 ≤ (computeTotalOccurencesPairs exp).1 d2 := by
  constructor
  · exact List.sum_le_sum (fun t _ => countAdj_le_count_fst d1 d2 t.Diagnoses)
  · exact List.sum_le_sum (fun t _ => countAdj_le_count_snd d1 d2 t.Diagnoses)

/-- Every cell of the Jaccard matrix fold is either what it started as or
holds the cell value of its own coordinates; and the cell of a written
pair holds the cell value. -/
theorem jaccard_fold_cell (exp : Experiment) (d1 d2 : ℕ) (pairs : List Pair)
    (m : ℕ → ℕ → Option ℚ) :
    ((pairs.foldl
        (fun index pair =>
          setCell index pair.First pair.Second
            (jaccardCellValue exp pair.First pair.Second)) m) d1 d2 = m d1 d2 ∨
     (pairs.foldl
        (fun index pair =>
          setCell index pair.First pair.Second
            (jaccardCellValue exp pair.First pair.Second)) m) d1 d2
        = jaccardCellValue exp d1 d2) ∧
    ((∃ pair ∈ pairs, pair.First = d1 ∧ pair.Second = d2) →
      (pairs.foldl
        (fun index pair =>
          setCell index pair.First pair.Second
            (jaccardCellValue exp pair.First pair.Second)) m) d1 d2
        = jaccardCellValue exp d1 d2) ∧
    ((∀ pair ∈ pairs, ¬(pair.First = d1 ∧ pair.Second = d2)) →
      (pairs.foldl
        (fun index pair =>
          setCell index pair.First pair.Second
            (jaccardCellValue exp pair.First pair.Second)) m) d1 d2
        = m d1 d2) := by
  induction pairs generalizing m with
  | nil =>
    refine ⟨Or.inl rfl, ?_, fun _ => rfl⟩
    rintro ⟨pair, hmem, _⟩
    simp at hmem
  | cons p rest ih =>
    rw [List.foldl_cons]
    have hstep : (setCell m p.First p.Second
        (jaccardCellValue exp p.First p.Second)) d1 d2 = m d1 d2 ∨
        (setCell m p.First p.Second
          (jaccardCellValue exp p.First p.Second)) d1 d2 = jaccardCellValue exp d1 d2 := by
      rw [setCell]
      split_ifs with h
      · right
        rw [h.1, h.2]
      · left
        rfl
    refine ⟨?_, ?_, ?_⟩
    · rcases (ih (setCell m p.First p.Second
          (jaccardCellValue exp p.First p.Second))).1 with h | h
      · rw [h]
        exact hstep
      · exact Or.inr h
    · rintro ⟨pair, hmem, hfs⟩
      rcases List.mem_cons.mp hmem with rfl | hmem2
      · rcases (ih (setCell m pair.First pair.Second
            (jaccardCellValue exp pair.First pair.Second))).1 with h | h
        · rw [h, setCell, if_pos ⟨hfs.1.symm, hfs.2.symm⟩, hfs.1, hfs.2]
        · exact h
      · exact (ih _).2.1 ⟨pair, hmem2, hfs⟩
    · intro hnone
      rw [(ih _).2.2 (fun pair hmem => hnone pair (by simp [hmem]))]
      rw [setCell, if_neg]
      intro hcon
      exact hnone p (by simp) ⟨hcon.1.symm, hcon.2.symm⟩

/-- **C7 (amended).** Every edge the clusterer writes to the Jaccard edge
list has weight in `[0, 1]`; a selected in-range pair whose adjacent
transition occurs in zero retained trajectories is still emitted — with
weight `0` — whenever one of its endpoints occurs in a retained
trajectory, and is dropped only when both endpoint totals are zero (the
`0.0/0.0` division yields `NaN`, which fails the `coeff >= 0` test). -/
theorem jaccard_edges_in_unit_interval (exp : Experiment) :
    (∀ e ∈ convertTrajectoryPairsToAbcFormat exp, 0 ≤ e.2.2 ∧ e.2.2 ≤ 1) ∧
    (∀ pair ∈ exp.Pairs, pair.First < exp.NofDiagnosisCodes →
      pair.Second < exp.NofDiagnosisCodes →
      (computeTotalOccurencesPairs exp).2 pair.First pair.Second = 0 →
      0 < (computeTotalOccurencesPairs exp).1 pair.First +
          (computeTotalOccurencesPairs exp).1 pair.Second →
      (pair.First, pair.Second, (0 : ℚ)) ∈ convertTrajectoryPairsToAbcFormat exp) := by
  constructor
  · intro e he
    rw [convertTrajectoryPairsToAbcFormat, List.mem_flatMap] at he
    obtain ⟨d1, _, hmem⟩ := he
    rw [List.mem_filterMap] at hmem
    obtain ⟨d2, _, hval⟩ := hmem
    rcases hcell : computeJaccardIndexForPairs exp d1 d2 with _ | q
    · rw [hcell] at hval
      exact absurd hval (by simp)
    · rw [hcell] at hval
      simp only at hval
      split_ifs at hval with hq
      obtain rfl : e = (d1, d2, q) := (Option.some.inj hval).symm
      refine ⟨hq, ?_⟩
      have hv := (jaccard_fold_cell exp d1 d2 exp.Pairs (fun _ _ => some (-1))).1
      rw [computeJaccardIndexForPairs] at hcell
      rcases hv with h | h
      · have hq1 : q = -1 := Option.some.inj (hcell.symm.trans h)
        rw [hq1] at hq
        norm_num at hq
      · have hcv : jaccardCellValue exp d1 d2 = some q := (hcell.symm.trans h).symm
        have hle := pairCounts_le_diagnosisCounts exp d1 d2
        simp only [jaccardCellValue] at hcv
        set p : ℚ := ((computeTotalOccurencesPairs exp).2 d1 d2 : ℚ) with hp
        set f : ℚ := ((computeTotalOccurencesPairs exp).1 d1 : ℚ) with hf
        set s : ℚ := ((computeTotalOccurencesPairs exp).1 d2 : ℚ) with hs
        have hpf : p ≤ f := by
          rw [hp, hf]
          exact_mod_cast hle.1
        have hps : p ≤ s := by
          rw [hp, hs]
          exact_mod_cast hle.2
        have hp0 : 0 ≤ p := by
          rw [hp]
          positivity
        split_ifs at hcv with hcond
        have hq2 : q = p / (f + s - p) := (Option.some.inj hcv).symm
        have hdpos : 0 < f + s - p := by
          rcases lt_or_eq_of_le (by linarith : (0 : ℚ) ≤ f + s - p) with hlt | heq
          · exact hlt
          · exact absurd ⟨heq.symm, by linarith⟩ hcond
        rw [hq2, div_le_one hdpos]
        linarith
  · intro pair hmem h1 h2 hadj hpos
    have hcell := (jaccard_fold_cell exp pair.First pair.Second exp.Pairs
      (fun _ _ => some (-1))).2.1 ⟨pair, hmem, rfl, rfl⟩
    have hsumpos : (0 : ℚ) < ((computeTotalOccurencesPairs exp).1 pair.First : ℚ) +
        ((computeTotalOccurencesPairs exp).1 pair.Second : ℚ) := by
      exact_mod_cast hpos
    have hval : jaccardCellValue exp pair.First pair.Second = some 0 := by
      simp only [jaccardCellValue, hadj, Nat.cast_zero, sub_zero]
      rw [if_neg]
      · rw [zero_div]
      · rintro ⟨hc, -⟩
        linarith
    rw [convertTrajectoryPairsToAbcFormat, List.mem_flatMap]
    refine ⟨pair.First, List.mem_range.mpr h1, ?_⟩
    rw [List.mem_filterMap]
    refine ⟨pair.Second, List.mem_range.mpr h2, ?_⟩
    rw [← computeJaccardIndexForPairs] at hcell
    rw [hcell, hval]
    norm_num

/-! ## Concrete inputs for claims C6 and C7 -/

/-- A concrete experiment for the clusterer: one retained trajectory with
diagnosis chain `[1, 0]` and one selected pair `(0, 1)` whose adjacent
transition `0 → 1` occurs in no retained trajectory. -/
def expC7 : Experiment :=
  { NofAgeGroups := 1, NofRegions := 1, Level := 0, NofDiagnosisCodes := 2,
    DxDRR := fun _ _ => 1, DxDPatients := fun _ _ => [], DPatients := fun _ => [],
    Cohorts := [], Name := "c7", NameMap := ["n0", "n1"],
    Trajectories :=
      [{ Diagnoses := [1, 0], PatientNumbers := [1], Patients := [[]],
         TrajMap := [], ID := 0, Cluster := 0 }],
    Pairs := [{ First := 0, Second := 1 }], IdMap := [], MCtr := 0, FCtr := 0 }

/-- The written cell of `expC7` holds the Jaccard coefficient `0`. -/
theorem expC7_cell_01 : computeJaccardIndexForPairs expC7 0 1 = some 0 := by
  have h := (jaccard_fold_cell expC7 0 1 expC7.Pairs (fun _ _ => some (-1))).2.1
    ⟨{ First := 0, Second := 1 }, by decide, rfl, rfl⟩
  rw [computeJaccardIndexForPairs, h, jaccardCellValue]
  have h2 : (computeTotalOccurencesPairs expC7).2 0 1 = 0 := by decide
  have hf : (computeTotalOccurencesPairs expC7).1 0 = 1 := by decide
  have hs : (computeTotalOccurencesPairs expC7).1 1 = 1 := by decide
  simp only [h2, hf, hs]
  norm_num

/-- The unwritten cells of `expC7` keep the `−1` sentinel. -/
theorem expC7_cell_other (d1 d2 : ℕ) (h : ¬(d1 = 0 ∧ d2 = 1)) :
    computeJaccardIndexForPairs expC7 d1 d2 = some (-1) := by
  have h2 := (jaccard_fold_cell expC7 d1 d2 expC7.Pairs (fun _ _ => some (-1))).2.2
    (by
      intro pair hmem
      have hp : pair = { First := 0, Second := 1 } := by
        simpa [expC7] using hmem
      rw [hp]
      intro hcon
      exact h ⟨hcon.1.symm, hcon.2.symm⟩)
  rw [computeJaccardIndexForPairs, h2]

/-- **C7 counterexample.** The selected pair `(0, 1)` of `expC7` has zero
adjacent transitions in the retained trajectories, yet the emitted edge
list is exactly `[(0, 1, 0)]`: the pair is not excluded, and its weight
`0` lies outside `(0, 1]`. -/
theorem jaccard_zero_weight_edge_emitted :
    convertTrajectoryPairsToAbcFormat expC7 = [(0, 1, 0)] ∧
    (computeTotalOccurencesPairs expC7).2 0 1 = 0 ∧
    ¬(0 < (0 : ℚ)) := by
  refine ⟨?_, by decide, by norm_num⟩
  rw [convertTrajectoryPairsToAbcFormat]
  have hrange : List.range expC7.NofDiagnosisCodes = [0, 1] := by decide
  rw [hrange]
  simp only [List.flatMap_cons, List.flatMap_nil, List.filterMap_cons, List.filterMap_nil,
    expC7_cell_01, expC7_cell_other 0 0 (by omega), expC7_cell_other 1 0 (by omega),
    expC7_cell_other 1 1 (by omega)]
  norm_num

/-- Witness for the amended C7 at `expC7`: the zero-transition selected
pair `(0, 1)` is emitted with weight `0`. -/
theorem jaccard_edges_in_unit_interval_witness :
    (0, 1, (0 : ℚ)) ∈ convertTrajectoryPairsToAbcFormat expC7 :=
  (jaccard_edges_in_unit_interval expC7).2 { First := 0, Second := 1 } (by decide)
    (by decide) (by decide) (by decide) (by decide)

/-- A patient with `PID = 0` (the Go zero value a missing string-id
lookup produces). -/
def patientZeroId : Patient :=
  { PID := 0, PIDString := "p0", YOB := 1950, CohortAge := 0, Sex := 0,
    Diagnoses := [], EOIDate := none, DeathDate := none, Region := 0 }

/-- A patient with `PID = 1`. -/
def patientOneId : Patient :=
  { PID := 1, PIDString := "p1", YOB := 1960, CohortAge := 0, Sex := 1,
    Diagnoses := [], EOIDate := none, DeathDate := none, Region := 0 }

/-- A two-code experiment whose only non-empty pair cell is
`DxDPatients[0][1] = [p1]`. -/
def expC6 : Experiment :=
  { NofAgeGroups := 1, NofRegions := 1, Level := 0, NofDiagnosisCodes := 2,
    DxDRR := fun i j => if i = 0 ∧ j = 1 then 2 else 1,
    DxDPatients := fun i j => if i = 0 ∧ j = 1 then [patientOneId] else [],
    DPatients := fun _ => [], Cohorts := [], Name := "c6", NameMap := ["n0", "n1"],
    Trajectories := [], Pairs := [], IdMap := [], MCtr := 0, FCtr := 0 }

/-- The patient map of the `expC6` population. -/
def pMapC6 : PatientMap :=
  { PIDStringMap := [("p0", 0), ("p1", 1)], Ctr := 2,
    PIDMap := [(0, patientZeroId), (1, patientOneId)], MaleCtr := 1, FemaleCtr := 1 }

/-- **C6 evaluation.** Saving and re-loading the per-pair patient lists is
not the identity: the guard `len(js) > 0` of `SaveDxDPatients` tests the
row instead of the cell, so every empty cell is written as an empty
patient string, which `LoadDxDPatients` splits into `[""]` and resolves
through the Go zero values to the `PID = 0` patient.  The empty cell
`(0,0)` loads back as `[patientZeroId]`.  (The non-empty cell `(0,1)`
does round-trip.) -/
theorem saveLoadDxDPatients_not_identity :
    (LoadDxDPatients expC6 pMapC6 (SaveDxDPatients expC6)).DxDPatients 0 0
        = [patientZeroId] ∧
    expC6.DxDPatients 0 0 = [] ∧
    (LoadDxDPatients expC6 pMapC6 (SaveDxDPatients expC6)).DxDPatients 0 1
        = [patientOneId] := by
  refine ⟨by decide, by decide, by decide⟩

/-! ## Claims C3 and C10 — the RR engine -/

/-- A patient has a diagnosis with the given DID. -/
def hasDiagnosisWith (p : Patient) (d : ℕ) : Prop :=
  ∃ diag ∈ p.Diagnoses, diag.DID = d

/-- The selection loop never collects more than `ctr` patients. -/
theorem selectRandomLoop_length (bits : ℕ → Bool) (ctr : ℕ) (excl : List Int) :
    ∀ (ps acc : List Patient) (skips k : ℕ), acc.length ≤ ctr →
      (selectRandomLoop bits ctr excl ps acc skips k).length ≤ ctr := by
  intro ps
  induction ps with
  | nil => intro acc skips k h; simpa [selectRandomLoop] using h
  | cons p rest ih =>
    intro acc skips k h
    rw [selectRandomLoop]
    split_ifs with h1 h2 h3 h4
    · simpa [h1]
    · exact ih acc skips k h
    · exact ih (acc ++ [p]) skips (k + 1) (by simp; omega)
    · exact ih acc (skips - 1) (k + 1) h
    · exact ih (acc ++ [p]) skips k (by simp; omega)

/-- `selectRandomPatientsWithoutShuffle` returns at most `ctr` patients. -/
theorem selectRandomPatientsWithoutShuffle_length (bits : ℕ → Bool)
    (patients : List Patient) (ctr : ℕ) (excl : List Int) :
    (selectRandomPatientsWithoutShuffle bits patients ctr excl).length ≤ ctr :=
  selectRandomLoop_length bits ctr excl patients [] _ 0 (by simp)

/-- Distributing a sum over a pointwise sum of maps. -/
theorem sum_map_add {α : Type} (l : List α) (f g : α → ℕ) :
    (l.map (fun x => f x + g x)).sum = (l.map f).sum + (l.map g).sum := by
  induction l with
  | nil => simp
  | cons a rest ih => simp [ih]; omega

/-- A sum of indicator values over a duplicate-free list is at most one. -/
theorem sum_map_ite_le_one (x : ℕ) (l : List ℕ) (hl : l.Nodup) :
    (l.map (fun i => if x = i then 1 else 0)).sum ≤ 1 := by
  induction l with
  | nil => simp
  | cons i rest ih =>
    rw [List.map_cons, List.sum_cons]
    by_cases h : x = i
    · have hx : x ∉ rest := h ▸ (List.nodup_cons.mp hl).1
      have hz : (rest.map (fun i => if x = i then 1 else 0)).sum = 0 := by
        rw [List.sum_eq_zero]
        intro y hy
        rcases List.mem_map.mp hy with ⟨j, hj, hjy⟩
        rw [← hjy, if_neg (fun hxy : x = j => hx (hxy ▸ hj))]
      rw [hz, if_pos h]
    · rw [if_neg h]
      simpa using ih (List.nodup_cons.mp hl).2

/-- The per-stratum sublist lengths sum to at most the list length. -/
theorem sum_filter_lengths_le (f : Patient → ℕ) (N : ℕ) (ps : List Patient) :
    ((List.range N).map (fun i => (ps.filter (fun p => f p == i)).length)).sum
      ≤ ps.length := by
  induction ps with
  | nil => simp
  | cons p rest ih =>
    have hpt : ∀ i : ℕ, ((p :: rest).filter (fun x => f x == i)).length
        = (rest.filter (fun x => f x == i)).length + (if f p = i then 1 else 0) := by
      intro i
      rw [List.filter_cons]
      by_cases h : f p = i
      · simp [h]
      · simp [h]
    calc ((List.range N).map (fun i => ((p :: rest).filter (fun x => f x == i)).length)).sum
        = ((List.range N).map (fun i =>
            (rest.filter (fun x => f x == i)).length + (if f p = i then 1 else 0))).sum := by
          exact congrArg List.sum (List.map_congr_left (fun i _ => hpt i))
      _ = ((List.range N).map (fun i => (rest.filter (fun x => f x == i)).length)).sum
          + ((List.range N).map (fun i => (if f p = i then 1 else 0))).sum :=
          sum_map_add _ _ _
      _ ≤ rest.length + 1 :=
          Nat.add_le_add ih (sum_map_ite_le_one (f p) _ (List.nodup_range N))
      _ = (p :: rest).length := by simp

/-- The matched control group is never larger than the input group. -/
theorem selectRandomPatientsFromSimilarCohorts_length (bits : ℕ → ℕ → Bool)
    (exp : Experiment) (patients : List Patient) (pids : List Int) :
    (selectRandomPatientsFromSimilarCohorts bits exp patients pids).length
      ≤ patients.length := by
  rw [selectRandomPatientsFromSimilarCohorts, List.length_flatten, List.map_map]
  calc (((List.range exp.Cohorts.length).map _)).sum
      ≤ ((List.range exp.Cohorts.length).map
          (fun i => (patients.filter
            (fun p => cohortIndex exp.NofAgeGroups exp.NofRegions p.Sex p.CohortAge
              p.Region == i)).length)).sum := by
        apply List.sum_le_sum
        intro i _
        exact selectRandomPatientsWithoutShuffle_length _ _ _ _
    _ ≤ patients.length :=
        sum_filter_lengths_le
          (fun p => cohortIndex exp.NofAgeGroups exp.NofRegions p.Sex p.CohortAge p.Region)
          _ patients

/-- The per-DID patient-list invariant of a cohort: everyone listed under
DID `d` really has a `d` diagnosis. -/
def cohortListsSound (c : Cohort) : Prop :=
  ∀ d : ℕ, ∀ p ∈ c.DPatients d, hasDiagnosisWith p d

/-- Every cohort allocated by `makeCohorts` has empty per-DID lists. -/
theorem makeCohorts_sound (nofAgeGroups nofRegions nofDiagnoses : ℕ) :
    ∀ c ∈ makeCohorts nofAgeGroups nofRegions nofDiagnoses, cohortListsSound c := by
  rw [makeCohorts]
  generalize List.range (nofAgeGroups * 2) = l
  have main : ∀ (l : List ℕ) (acc : List Cohort × (ℕ × ℕ × ℕ)),
      (∀ c ∈ acc.1, cohortListsSound c) →
      ∀ c ∈ (l.foldl
          (fun acc i =>
            let r := makeCohortsStep nofAgeGroups (nofAgeGroups * 2 / 2) i acc.2
            (acc.1 ++ [r.1], r.2)) acc).1, cohortListsSound c := by
    intro l
    induction l with
    | nil => intro acc h; exact h
    | cons i rest ih =>
      intro acc h
      rw [List.foldl_cons]
      apply ih
      intro c hc
      rcases List.mem_append.mp hc with hmem | hmem
      · exact h c hmem
      · rw [List.mem_singleton.mp hmem]
        intro d p hp
        simp [makeCohortsStep] at hp
  intro c hc
  exact main l ([], (Male, 0, 0)) (by simp) c hc

/-- `countPatientDiagnoses` preserves the invariant: the only patient it
appends to a per-DID list is the visited patient, at the DIDs of its own
diagnoses. -/
theorem countPatientDiagnoses_sound (patient : Patient) (cohort : Cohort)
    (h : cohortListsSound cohort) : cohortListsSound (countPatientDiagnoses patient cohort) := by
  rw [countPatientDiagnoses]
  have main : ∀ (l : List Diagnosis), (∀ diag ∈ l, diag ∈ patient.Diagnoses) →
      ∀ (acc : Cohort × List ℕ), cohortListsSound acc.1 →
      cohortListsSound ((l.foldl
        (fun (acc : Cohort × List ℕ) d1 =>
          if d1.DID ∈ acc.2 then acc
          else
            ({ acc.1 with
                DCtr := Function.update acc.1.DCtr d1.DID (acc.1.DCtr d1.DID + 1),
                NofDiagnoses := acc.1.NofDiagnoses + 1,
                DPatients :=
                  Function.update acc.1.DPatients d1.DID
                    (acc.1.DPatients d1.DID ++ [patient]) },
              d1.DID :: acc.2)) acc).1) := by
    intro l
    induction l with
    | nil => intro _ acc hacc; exact hacc
    | cons d1 rest ih =>
      intro hsub acc hacc
      rw [List.foldl_cons]
      apply ih (fun diag hd => hsub diag (by simp [hd]))
      split_ifs with hseen
      · exact hacc
      · intro d p hp
        simp only [Function.update_apply] at hp
        split_ifs at hp with hd
        · rw [hd]
          rcases List.mem_append.mp hp with hmem | hmem
          · exact hacc d1.DID p hmem
          · rw [List.mem_singleton.mp hmem]
            exact ⟨d1, hsub d1 (by simp), rfl⟩
        · exact hacc d p hp
  exact main patient.Diagnoses (fun _ hd => hd) (cohort, []) h

/-- Adding one patient in `InitializeCohorts` preserves the invariant of
every cohort. -/
theorem initializeCohortsAddPatient_sound (nofAgegroups nofRegions : ℕ)
    (cohorts : List Cohort) (patient : Patient)
    (h : ∀ c ∈ cohorts, cohortListsSound c) :
    ∀ c ∈ initializeCohortsAddPatient nofAgegroups nofRegions cohorts patient,
      cohortListsSound c := by
  intro c hc
  rw [initializeCohortsAddPatient] at hc
  rcases List.mem_or_eq_of_mem_set hc with hmem | rfl
  · exact h c hmem
  · apply countPatientDiagnoses_sound
    intro d p hp
    rcases hg : (cohorts.get?
        (cohortIndex nofAgegroups nofRegions patient.Sex patient.CohortAge
          patient.Region)) with _ | c0
    · rw [hg] at hp
      simp [emptyCohort] at hp
    · rw [hg] at hp
      exact h c0 (List.get?_mem hg) d p hp

/-- **C10, cohort construction half.** Every patient stored in a per-DID
list of a cohort built by `InitializeCohorts` has a diagnosis with that
DID. -/
theorem initializeCohorts_sound (patients : List Patient)
    (nofAgegroups nofRegions nofDiagnosisCodes : ℕ) :
    ∀ c ∈ InitializeCohorts patients nofAgegroups nofRegions nofDiagnosisCodes,
      cohortListsSound c := by
  rw [InitializeCohorts]
  have main : ∀ (l : List Patient) (cohorts : List Cohort),
      (∀ c ∈ cohorts, cohortListsSound c) →
      ∀ c ∈ l.foldl (initializeCohortsAddPatient nofAgegroups nofRegions) cohorts,
        cohortListsSound c := by
    intro l
    induction l with
    | nil => intro cohorts h; exact h
    | cons p rest ih =>
      intro cohorts h
      rw [List.foldl_cons]
      exact ih _ (initializeCohortsAddPatient_sound nofAgegroups nofRegions cohorts p h)
  exact main patients _ (makeCohorts_sound nofAgegroups nofRegions nofDiagnosisCodes)

/-- The panic branch of `countPatientDiagnosisPair` is unreachable when
the patient has a `d1` diagnosis. -/
theorem countPatientDiagnosisPair_isSome (p : Patient) (d1 d2 : ℕ) (minTime maxTime : ℚ)
    (h : hasDiagnosisWith p d1) :
    (countPatientDiagnosisPair p d1 d2 minTime maxTime).isSome := by
  rw [countPatientDiagnosisPair]
  cases hf : p.Diagnoses.findIdx? (fun d => d.DID == d1) with
  | none =>
    obtain ⟨diag, hmem, hdid⟩ := h
    have := List.findIdx?_eq_none_iff.mp hf diag hmem
    simp [hdid] at this
  | some i =>
    split
    · simp_all
    · dsimp only
      split <;> simp

/-- The exposed-counting loop of the RR engine never panics on a list of
patients that all have `d1`. -/
theorem rrExposedLoop_isSome (d1 d2 : ℕ) (minTime maxTime : ℚ) :
    ∀ (ps : List Patient), (∀ p ∈ ps, hasDiagnosisWith p d1) →
    ∀ (a : ℕ) (followed : List Patient),
      (rrExposedLoop d1 d2 minTime maxTime ps a followed).isSome := by
  intro ps
  induction ps with
  | nil => intro _ a followed; simp [rrExposedLoop]
  | cons p rest ih =>
    intro h a followed
    rw [rrExposedLoop]
    cases hc : countPatientDiagnosisPair p d1 d2 minTime maxTime with
    | none =>
      have := countPatientDiagnosisPair_isSome p d1 d2 minTime maxTime (h p (by simp))
      rw [hc] at this
      simp at this
    | some av => exact ih (fun q hq => h q (by simp [hq])) _ _

/-- Immutable-state preservation of one RR engine pair step: everything
except the two cells at `(d1, d2)` is untouched. -/
theorem rrPairStep_preserves (bits : ℕ → ℕ → ℕ → Bool) (minTime maxTime : ℚ) (iter : ℕ)
    (d1 : ℕ) (E : List Patient) (ids : List Int) (exp : Experiment) (d2 : ℕ)
    (e2 : Experiment) (h : rrPairStep bits minTime maxTime iter d1 E ids exp d2 = some e2) :
    e2.DPatients = exp.DPatients ∧ e2.Cohorts = exp.Cohorts ∧
    e2.NofAgeGroups = exp.NofAgeGroups ∧ e2.NofRegions = exp.NofRegions ∧
    e2.NofDiagnosisCodes = exp.NofDiagnosisCodes ∧
    (∀ i j : ℕ, ¬(i = d1 ∧ j = d2) →
      e2.DxDRR i j = exp.DxDRR i j ∧ e2.DxDPatients i j = exp.DxDPatients i j) := by
  rw [rrPairStep] at h
  split_ifs at h with h1
  · cases hE : rrExposedLoop d1 d2 minTime maxTime E 0 [] with
    | none => rw [hE] at h; exact Option.noConfusion h
    | some av =>
      rw [hE] at h
      simp only at h
      split_ifs at h with h2 h3
      · obtain rfl := Option.some.inj h
        exact ⟨rfl, rfl, rfl, rfl, rfl, fun _ _ _ => ⟨rfl, rfl⟩⟩
      · obtain rfl := Option.some.inj h
        exact ⟨rfl, rfl, rfl, rfl, rfl, fun _ _ _ => ⟨rfl, rfl⟩⟩
      · obtain rfl := (Option.some.inj h).symm
        refine ⟨rfl, rfl, rfl, rfl, rfl, fun i j hij => ?_⟩
        simp only [setCell]
        rw [if_neg hij, if_neg hij]
        exact ⟨rfl, rfl⟩
  · obtain rfl := Option.some.inj h
    exact ⟨rfl, rfl, rfl, rfl, rfl, fun _ _ _ => ⟨rfl, rfl⟩⟩

/-- The exposed-followed count `a` of one pair step. -/
def rrStepA (d1 d2 : ℕ) (minTime maxTime : ℚ) (E : List Patient) : ℕ :=
  ((rrExposedLoop d1 d2 minTime maxTime E 0 []).getD (0, [])).1

/-- The `d1→d2` patient list of one pair step. -/
def rrStepFollowed (d1 d2 : ℕ) (minTime maxTime : ℚ) (E : List Patient) : List Patient :=
  ((rrExposedLoop d1 d2 minTime maxTime E 0 []).getD (0, [])).2

/-- The averaged unexposed count `c` of one pair step (integer division by
`iter`, as in the source). -/
def rrStepC (bits : ℕ → ℕ → ℕ → Bool) (exp : Experiment) (E : List Patient)
    (ids : List Int) (d2 a iter : ℕ) : ℕ :=
  (rrIterCounts bits exp E ids d2 a iter).2 / iter

/-- The three gates of one RR pair step (beyond the non-empty exposed set
checked by the outer loop): the drawn control group has the size of the
exposed group; the unexposed `d2` prevalence is below the exposed
`d1→d2` rate; the estimated p-value does not exceed `0.001`. -/
def rrStepPasses (bits : ℕ → ℕ → ℕ → Bool) (minTime maxTime : ℚ) (iter d1 : ℕ)
    (E : List Patient) (ids : List Int) (exp : Experiment) (d2 : ℕ) : Prop :=
  E.length = (rrControlDraw bits exp E ids 0).length ∧
  probNotExposed exp E ids d2 < (rrStepA d1 d2 minTime maxTime E : ℚ) / (E.length : ℚ) ∧
  ¬(((rrIterCounts bits exp E ids d2 (rrStepA d1 d2 minTime maxTime E) iter).1 : ℚ)
      / (iter : ℚ) > 0.001)

/-- The RR value one pair step writes when every gate passes. -/
def rrStepRR (bits : ℕ → ℕ → ℕ → Bool) (minTime maxTime : ℚ) (iter d1 : ℕ)
    (E : List Patient) (ids : List Int) (exp : Experiment) (d2 : ℕ) : ℚ :=
  rrValue E.length (rrStepA d1 d2 minTime maxTime E)
    (rrStepC bits exp E ids d2 (rrStepA d1 d2 minTime maxTime E) iter)

/-- One RR pair step cannot panic when every exposed patient has `d1`. -/
theorem rrPairStep_isSome (bits : ℕ → ℕ → ℕ → Bool) (minTime maxTime : ℚ) (iter : ℕ)
    (d1 : ℕ) (E : List Patient) (ids : List Int) (exp : Experiment) (d2 : ℕ)
    (hE : ∀ p ∈ E, hasDiagnosisWith p d1) :
    (rrPairStep bits minTime maxTime iter d1 E ids exp d2).isSome := by
  rw [rrPairStep]
  split_ifs with h1
  · cases hEL : rrExposedLoop d1 d2 minTime maxTime E 0 [] with
    | none =>
      have := rrExposedLoop_isSome d1 d2 minTime maxTime E hE 0 []
      rw [hEL] at this
      simp at this
    | some av =>
      simp only
      split_ifs <;> simp
  · simp

/-- Cell characterization of one RR pair step: the `(d1, d2)` cells are
written with the computed RR and patient list exactly when the gates
pass, and are untouched otherwise. -/
theorem rrPairStep_cell (bits : ℕ → ℕ → ℕ → Bool) (minTime maxTime : ℚ) (iter : ℕ)
    (d1 : ℕ) (E : List Patient) (ids : List Int) (exp : Experiment) (d2 : ℕ)
    (e2 : Experiment) (h : rrPairStep bits minTime maxTime iter d1 E ids exp d2 = some e2)
    (hE : ∀ p ∈ E, hasDiagnosisWith p d1) :
    (rrStepPasses bits minTime maxTime iter d1 E ids exp d2 →
      e2.DxDRR d1 d2 = rrStepRR bits minTime maxTime iter d1 E ids exp d2 ∧
      e2.DxDPatients d1 d2 = rrStepFollowed d1 d2 minTime maxTime E) ∧
    (¬rrStepPasses bits minTime maxTime iter d1 E ids exp d2 →
      e2.DxDRR d1 d2 = exp.DxDRR d1 d2 ∧ e2.DxDPatients d1 d2 = exp.DxDPatients d1 d2) := by
  have hsome := rrExposedLoop_isSome d1 d2 minTime maxTime E hE 0 []
  rw [rrPairStep] at h
  split_ifs at h with h1
  · cases hEL : rrExposedLoop d1 d2 minTime maxTime E 0 [] with
    | none => rw [hEL] at hsome; simp at hsome
    | some av =>
      have hA : rrStepA d1 d2 minTime maxTime E = av.1 := by
        rw [rrStepA, hEL]
        rfl
      have hF : rrStepFollowed d1 d2 minTime maxTime E = av.2 := by
        rw [rrStepFollowed, hEL]
        rfl
      rw [hEL] at h
      simp only at h
      split_ifs at h with h2 h3
      · obtain rfl := Option.some.inj h
        refine ⟨fun hp => ?_, fun _ => ⟨rfl, rfl⟩⟩
        exfalso
        rw [rrStepPasses, hA] at hp
        exact absurd h2 (not_le.mpr hp.2.1)
      · obtain rfl := Option.some.inj h
        refine ⟨fun hp => ?_, fun _ => ⟨rfl, rfl⟩⟩
        exfalso
        rw [rrStepPasses, hA] at hp
        exact hp.2.2 h3
      · obtain rfl := (Option.some.inj h).symm
        constructor
        · intro _
          constructor
          · simp only [setCell]
            rw [rrStepRR, rrStepC, hA]
            simp
          · simp only [setCell]
            rw [hF]
            simp
        · intro hnp
          exfalso
          apply hnp
          rw [rrStepPasses, hA]
          exact ⟨h1, not_le.mp h2, h3⟩
  · obtain rfl := Option.some.inj h
    refine ⟨fun hp => ?_, fun _ => ⟨rfl, rfl⟩⟩
    rw [rrStepPasses] at hp
    exact absurd hp.1 h1

/-- The matched sampler and the prevalence estimate read the experiment
only through its cohorts and stratification parameters. -/
theorem sampler_congr (e1 exp : Experiment)
    (hC : e1.Cohorts = exp.Cohorts) (hA : e1.NofAgeGroups = exp.NofAgeGroups)
    (hR : e1.NofRegions = exp.NofRegions) :
    (∀ (bits : ℕ → ℕ → Bool) (ps : List Patient) (ids : List Int),
      selectRandomPatientsFromSimilarCohorts bits e1 ps ids
        = selectRandomPatientsFromSimilarCohorts bits exp ps ids) ∧
    (∀ (ps : List Patient) (ids : List Int) (d2 : ℕ),
      probNotExposed e1 ps ids d2 = probNotExposed exp ps ids d2) := by
  constructor
  · intro bits ps ids
    simp only [selectRandomPatientsFromSimilarCohorts, hC, hA, hR]
  · intro ps ids d2
    simp only [probNotExposed, hC, hA, hR]

/-- Gate predicates and written values of a pair step depend only on the
immutable parts of the experiment. -/
theorem rrStep_congr (e1 exp : Experiment)
    (hC : e1.Cohorts = exp.Cohorts) (hA : e1.NofAgeGroups = exp.NofAgeGroups)
    (hR : e1.NofRegions = exp.NofRegions) (bits : ℕ → ℕ → ℕ → Bool)
    (minTime maxTime : ℚ) (iter d1 : ℕ) (E : List Patient) (ids : List Int) (d2 : ℕ) :
    (rrStepPasses bits minTime maxTime iter d1 E ids e1 d2 ↔
      rrStepPasses bits minTime maxTime iter d1 E ids exp d2) ∧
    rrStepRR bits minTime maxTime iter d1 E ids e1 d2
      = rrStepRR bits minTime maxTime iter d1 E ids exp d2 := by
  have hcd : ∀ k, rrControlDraw bits e1 E ids k = rrControlDraw bits exp E ids k := by
    intro k
    rw [rrControlDraw, rrControlDraw, (sampler_congr e1 exp hC hA hR).1]
  have hic : ∀ a, rrIterCounts bits e1 E ids d2 a iter = rrIterCounts bits exp E ids d2 a iter := by
    intro a
    simp only [rrIterCounts, hcd]
  constructor
  · rw [rrStepPasses, rrStepPasses, hcd 0, (sampler_congr e1 exp hC hA hR).2, hic]
  · rw [rrStepRR, rrStepRR, rrStepC, rrStepC, hic]

/-- Specification of the inner (`d2`) loop of the RR engine: it succeeds,
preserves the immutable state, touches only the cells of row `d1` at the
visited columns, and writes each visited cell according to its gates. -/
theorem rrInnerLoop_spec (bits : ℕ → ℕ → ℕ → ℕ → Bool) (minTime maxTime : ℚ)
    (iter d1 : ℕ) (E : List Patient) (ids : List Int)
    (hE : ∀ p ∈ E, hasDiagnosisWith p d1) :
    ∀ (l : List ℕ), l.Nodup → ∀ (exp : Experiment),
    ∃ e2, rrInnerLoop bits minTime maxTime iter d1 E ids l exp = some e2 ∧
      (e2.DPatients = exp.DPatients ∧ e2.Cohorts = exp.Cohorts ∧
       e2.NofAgeGroups = exp.NofAgeGroups ∧ e2.NofRegions = exp.NofRegions ∧
       e2.NofDiagnosisCodes = exp.NofDiagnosisCodes) ∧
      (∀ i j : ℕ, (i ≠ d1 ∨ j ∉ l) →
        e2.DxDRR i j = exp.DxDRR i j ∧ e2.DxDPatients i j = exp.DxDPatients i j) ∧
      (∀ d2 ∈ l,
        (rrStepPasses (bits d2) minTime maxTime iter d1 E ids exp d2 →
          e2.DxDRR d1 d2 = rrStepRR (bits d2) minTime maxTime iter d1 E ids exp d2 ∧
          e2.DxDPatients d1 d2 = rrStepFollowed d1 d2 minTime maxTime E) ∧
        (¬rrStepPasses (bits d2) minTime maxTime iter d1 E ids exp d2 →
          e2.DxDRR d1 d2 = exp.DxDRR d1 d2 ∧
          e2.DxDPatients d1 d2 = exp.DxDPatients d1 d2)) := by
  intro l
  induction l with
  | nil =>
    intro _ exp
    refine ⟨exp, rfl, ⟨rfl, rfl, rfl, rfl, rfl⟩, fun _ _ _ => ⟨rfl, rfl⟩, ?_⟩
    intro d2 hd2
    simp at hd2
  | cons d2 rest ih =>
    intro hnd exp
    have hd2rest : d2 ∉ rest := (List.nodup_cons.mp hnd).1
    obtain ⟨e1, he1⟩ := Option.isSome_iff_exists.mp
      (rrPairStep_isSome (bits d2) minTime maxTime iter d1 E ids exp d2 hE)
    have hpres := rrPairStep_preserves (bits d2) minTime maxTime iter d1 E ids exp d2 e1 he1
    have hcell := rrPairStep_cell (bits d2) minTime maxTime iter d1 E ids exp d2 e1 he1 hE
    obtain ⟨e2, he2, hImm, hUn, hChar⟩ := ih (List.nodup_cons.mp hnd).2 e1
    have hcongr := fun d2' => rrStep_congr e1 exp hpres.2.1 hpres.2.2.1 hpres.2.2.2.1
      (bits d2') minTime maxTime iter d1 E ids d2'
    refine ⟨e2, ?_, ?_, ?_, ?_⟩
    · rw [rrInnerLoop, he1]
      exact he2
    · exact ⟨hImm.1.trans hpres.1, hImm.2.1.trans hpres.2.1,
        hImm.2.2.1.trans hpres.2.2.1, hImm.2.2.2.1.trans hpres.2.2.2.1,
        hImm.2.2.2.2.trans hpres.2.2.2.2.1⟩
    · intro i j hij
      have hij2 : i ≠ d1 ∨ j ∉ rest := by
        rcases hij with h | h
        · exact Or.inl h
        · exact Or.inr (fun hmem => h (by simp [hmem]))
      have h1 := hUn i j hij2
      have h2 := hpres.2.2.2.2.2 i j (by
        rintro ⟨rfl, rfl⟩
        rcases hij with h | h
        · exact h rfl
        · exact h (by simp))
      exact ⟨h1.1.trans h2.1, h1.2.trans h2.2⟩
    · intro d2' hmem
      rcases List.mem_cons.mp hmem with rfl | hmem2
      · -- the head column: written by the step, untouched by the rest
        have hUn2 := hUn d1 d2' (Or.inr hd2rest)
        constructor
        · intro hp
          have := hcell.1 hp
          exact ⟨hUn2.1.trans this.1, hUn2.2.trans this.2⟩
        · intro hp
          have := hcell.2 hp
          exact ⟨hUn2.1.trans this.1, hUn2.2.trans this.2⟩
      · -- a later column: the head step only moved the immutable state
        have hne : d2' ≠ d2 := fun hcon => hd2rest (hcon ▸ hmem2)
        have hcells := hpres.2.2.2.2.2 d1 d2' (by
          rintro ⟨-, rfl⟩
          exact hne rfl)
        have hchar2 := hChar d2' hmem2
        constructor
        · intro hp
          have := hchar2.1 ((hcongr d2').1.mpr hp)
          exact ⟨this.1.trans ((hcongr d2').2), this.2⟩
        · intro hp
          have := hchar2.2 (fun hcon => hp ((hcongr d2').1.mp hcon))
          exact ⟨this.1.trans hcells.1, this.2.trans hcells.2⟩

/-- Specification of the outer (`d1`) loop of the RR engine. -/
theorem rrOuterLoop_spec (bits : ℕ → ℕ → ℕ → ℕ → ℕ → Bool) (minTime maxTime : ℚ)
    (iter : ℕ) :
    ∀ (l : List ℕ), l.Nodup → ∀ (exp : Experiment),
    (∀ d : ℕ, ∀ p ∈ exp.DPatients d, hasDiagnosisWith p d) →
    ∃ e2, rrOuterLoop bits minTime maxTime iter l exp = some e2 ∧
      (e2.DPatients = exp.DPatients ∧ e2.Cohorts = exp.Cohorts ∧
       e2.NofAgeGroups = exp.NofAgeGroups ∧ e2.NofRegions = exp.NofRegions ∧
       e2.NofDiagnosisCodes = exp.NofDiagnosisCodes) ∧
      (∀ i j : ℕ, i ∉ l →
        e2.DxDRR i j = exp.DxDRR i j ∧ e2.DxDPatients i j = exp.DxDPatients i j) ∧
      (∀ d1 ∈ l,
        ((exp.DPatients d1).length = 0 →
          ∀ j : ℕ, e2.DxDRR d1 j = exp.DxDRR d1 j ∧
            e2.DxDPatients d1 j = exp.DxDPatients d1 j) ∧
        (0 < (exp.DPatients d1).length →
          ∀ d2 ∈ List.range exp.NofDiagnosisCodes,
            (rrStepPasses (bits d1 d2) minTime maxTime iter d1 (exp.DPatients d1)
                (patientsToIdMap (exp.DPatients d1)) exp d2 →
              e2.DxDRR d1 d2 = rrStepRR (bits d1 d2) minTime maxTime iter d1
                  (exp.DPatients d1) (patientsToIdMap (exp.DPatients d1)) exp d2 ∧
              e2.DxDPatients d1 d2
                = rrStepFollowed d1 d2 minTime maxTime (exp.DPatients d1)) ∧
            (¬rrStepPasses (bits d1 d2) minTime maxTime iter d1 (exp.DPatients d1)
                (patientsToIdMap (exp.DPatients d1)) exp d2 →
              e2.DxDRR d1 d2 = exp.DxDRR d1 d2 ∧
              e2.DxDPatients d1 d2 = exp.DxDPatients d1 d2))) := by
  intro l
  induction l with
  | nil =>
    intro _ exp _
    refine ⟨exp, rfl, ⟨rfl, rfl, rfl, rfl, rfl⟩, fun _ _ _ => ⟨rfl, rfl⟩, ?_⟩
    intro d1 hd1
    simp at hd1
  | cons d1 rest ih =>
    intro hnd exp hW
    have hd1rest : d1 ∉ rest := (List.nodup_cons.mp hnd).1
    by_cases hlen : 0 < (exp.DPatients d1).length
    · obtain ⟨e1, he1, hImm1, hUn1, hChar1⟩ :=
        rrInnerLoop_spec (bits d1) minTime maxTime iter d1 (exp.DPatients d1)
          (patientsToIdMap (exp.DPatients d1)) (hW d1)
          (List.range exp.NofDiagnosisCodes) (List.nodup_range _) exp
      obtain ⟨e2, he2, hImm2, hUn2, hChar2⟩ := ih (List.nodup_cons.mp hnd).2 e1
        (by rw [hImm1.1]; exact hW)
      have hcongr := fun d1' d2' E' ids' => rrStep_congr e1 exp hImm1.2.1 hImm1.2.2.1
        hImm1.2.2.2.1 (bits d1' d2') minTime maxTime iter d1' E' ids' d2'
      refine ⟨e2, ?_, ?_, ?_, ?_⟩
      · rw [rrOuterLoop, if_pos hlen, he1]
        exact he2
      · exact ⟨hImm2.1.trans hImm1.1, hImm2.2.1.trans hImm1.2.1,
          hImm2.2.2.1.trans hImm1.2.2.1, hImm2.2.2.2.1.trans hImm1.2.2.2.1,
          hImm2.2.2.2.2.trans hImm1.2.2.2.2⟩
      · intro i j hij
        have h2 := hUn2 i j (fun hmem => hij (by simp [hmem]))
        have h1 := hUn1 i j (Or.inl (fun hcon => hij (hcon ▸ by simp)))
        exact ⟨h2.1.trans h1.1, h2.2.trans h1.2⟩
      · intro d1' hmem
        rcases List.mem_cons.mp hmem with rfl | hmem2
        · -- the head row, processed by the inner loop, untouched afterwards
          constructor
          · intro hzero
            omega
          · intro _ d2 hd2
            have hUn2r := hUn2 d1' d2 hd1rest
            have hchar := hChar1 d2 hd2
            constructor
            · intro hp
              have := hchar.1 hp
              exact ⟨hUn2r.1.trans this.1, hUn2r.2.trans this.2⟩
            · intro hp
              have := hchar.2 hp
              exact ⟨hUn2r.1.trans this.1, hUn2r.2.trans this.2⟩
        · -- a later row: transport the recursive characterization
          have hrowUn := fun j => hUn1 d1' j
            (Or.inl (fun hcon => hd1rest (hcon ▸ hmem2)))
          have hDP : e1.DPatients = exp.DPatients := hImm1.1
          have hD : e1.NofDiagnosisCodes = exp.NofDiagnosisCodes := hImm1.2.2.2.2
          have hchar2 := hChar2 d1' hmem2
          constructor
          · intro hzero
            intro j
            have := hchar2.1 (by rw [hDP]; exact hzero) j
            exact ⟨this.1.trans (hrowUn j).1, this.2.trans (hrowUn j).2⟩
          · intro hpos d2 hd2
            have hpos1 : 0 < (e1.DPatients d1').length := by rw [hDP]; exact hpos
            have hd2e1 : d2 ∈ List.range e1.NofDiagnosisCodes := by rw [hD]; exact hd2
            have hchar3 := hchar2.2 hpos1 d2 hd2e1
            rw [hDP] at hchar3
            have hcg := hcongr d1' d2 (exp.DPatients d1')
              (patientsToIdMap (exp.DPatients d1'))
            constructor
            · intro hp
              have := hchar3.1 (hcg.1.mpr hp)
              exact ⟨this.1.trans hcg.2, this.2⟩
            · intro hp
              have := hchar3.2 (fun hcon => hp (hcg.1.mp hcon))
              exact ⟨this.1.trans (hrowUn d2).1, this.2.trans (hrowUn d2).2⟩
    · obtain ⟨e2, he2, hImm2, hUn2, hChar2⟩ := ih (List.nodup_cons.mp hnd).2 exp hW
      refine ⟨e2, ?_, hImm2, ?_, ?_⟩
      · rw [rrOuterLoop, if_neg hlen]
        exact he2
      · intro i j hij
        exact hUn2 i j (fun hmem => hij (by simp [hmem]))
      · intro d1' hmem
        rcases List.mem_cons.mp hmem with rfl | hmem2
        · refine ⟨fun _ j => hUn2 d1' j hd1rest, fun hpos _ _ => absurd hpos hlen⟩
        · exact hChar2 d1' hmem2

/-- **C10.** Cohort construction only ever lists a patient under a DID of
one of its own diagnoses, and under that precondition on `DPatients` the
panic branch of `countPatientDiagnosisPair` is unreachable for every call
made by the RR engine: the engine always returns a result. -/
theorem rr_engine_no_panic :
    (∀ (patients : List Patient) (nofAgegroups nofRegions nofDiagnosisCodes : ℕ),
      ∀ c ∈ InitializeCohorts patients nofAgegroups nofRegions nofDiagnosisCodes,
        ∀ d : ℕ, ∀ p ∈ c.DPatients d, hasDiagnosisWith p d) ∧
    (∀ (bits : ℕ → ℕ → ℕ → ℕ → ℕ → Bool) (exp : Experiment) (minTime maxTime : ℚ)
        (iter : ℕ),
      (∀ d : ℕ, ∀ p ∈ exp.DPatients d, hasDiagnosisWith p d) →
      (InitializeExperimentRelativeRiskRatios bits exp minTime maxTime iter).isSome) := by
  constructor
  · intro patients A R D c hc d p hp
    exact initializeCohorts_sound patients A R D c hc d p hp
  · intro bits exp minTime maxTime iter hW
    obtain ⟨e2, he2, -⟩ := rrOuterLoop_spec bits minTime maxTime iter
      (List.range exp.NofDiagnosisCodes) (List.nodup_range _) exp hW
    rw [InitializeExperimentRelativeRiskRatios, he2]
    rfl

/-- **C3.** For every ordered pair `(d1, d2)` processed by the RR engine
starting from the freshly initialised matrices: if the pair is skipped —
empty exposed set, control group smaller than the exposed set (the drawn
control is never larger, as the second conjunct states), pre-filter
`p̄ ≥ p_exp`, or estimated p-value above `0.001` — then `RR[d1][d2]`
remains `1.0` and `DxDPatients[d1][d2]` remains empty; the cell and the
`d1→d2` patient list are written (with the computed RR and the exposed
`d1→d2` patients) exactly when all gates pass. -/
theorem rr_skip_gates (bits : ℕ → ℕ → ℕ → ℕ → ℕ → Bool) (exp : Experiment)
    (minTime maxTime : ℚ) (iter d1 d2 : ℕ)
    (hW : ∀ d : ℕ, ∀ p ∈ exp.DPatients d, hasDiagnosisWith p d)
    (hd1 : d1 < exp.NofDiagnosisCodes) (hd2 : d2 < exp.NofDiagnosisCodes)
    (hRR0 : exp.DxDRR = MakeDxDRR exp.NofDiagnosisCodes)
    (hP0 : exp.DxDPatients = MakeDxDPatients exp.NofDiagnosisCodes) :
    ∃ expF, InitializeExperimentRelativeRiskRatios bits exp minTime maxTime iter
        = some expF ∧
      (rrControlDraw (bits d1 d2) exp (exp.DPatients d1)
          (patientsToIdMap (exp.DPatients d1)) 0).length ≤ (exp.DPatients d1).length ∧
      ((0 < (exp.DPatients d1).length ∧
          rrStepPasses (bits d1 d2) minTime maxTime iter d1 (exp.DPatients d1)
            (patientsToIdMap (exp.DPatients d1)) exp d2) →
        expF.DxDRR d1 d2 = rrStepRR (bits d1 d2) minTime maxTime iter d1
            (exp.DPatients d1) (patientsToIdMap (exp.DPatients d1)) exp d2 ∧
        expF.DxDPatients d1 d2 = rrStepFollowed d1 d2 minTime maxTime (exp.DPatients d1)) ∧
      (¬(0 < (exp.DPatients d1).length ∧
          rrStepPasses (bits d1 d2) minTime maxTime iter d1 (exp.DPatients d1)
            (patientsToIdMap (exp.DPatients d1)) exp d2) →
        expF.DxDRR d1 d2 = 1 ∧ expF.DxDPatients d1 d2 = []) := by
  obtain ⟨e2, he2, hImm, hUn, hChar⟩ := rrOuterLoop_spec bits minTime maxTime iter
    (List.range exp.NofDiagnosisCodes) (List.nodup_range _) exp hW
  have hrow := hChar d1 (List.mem_range.mpr hd1)
  refine ⟨e2, ?_, ?_, ?_, ?_⟩
  · rw [InitializeExperimentRelativeRiskRatios]
    exact he2
  · exact selectRandomPatientsFromSimilarCohorts_length _ _ _ _
  · rintro ⟨hpos, hp⟩
    exact hrow.2 hpos d2 (List.mem_range.mpr hd2) |>.1 hp
  · intro hn
    by_cases hpos : 0 < (exp.DPatients d1).length
    · have hnp : ¬rrStepPasses (bits d1 d2) minTime maxTime iter d1 (exp.DPatients d1)
          (patientsToIdMap (exp.DPatients d1)) exp d2 :=
        fun hcon => hn ⟨hpos, hcon⟩
      have := (hrow.2 hpos d2 (List.mem_range.mpr hd2)).2 hnp
      rw [this.1, this.2, hRR0, hP0]
      exact ⟨rfl, rfl⟩
    · have := hrow.1 (by omega) d2
      rw [this.1, this.2, hRR0, hP0]
      exact ⟨rfl, rfl⟩

/-- A minimal experiment (one diagnosis code, no patients) used as the
concrete input of the RR-engine witnesses. -/
def expTiny : Experiment :=
  { NofAgeGroups := 1, NofRegions := 1, Level := 0, NofDiagnosisCodes := 1,
    DxDRR := MakeDxDRR 1, DxDPatients := MakeDxDPatients 1, DPatients := fun _ => [],
    Cohorts := [], Name := "tiny", NameMap := ["n0"], Trajectories := [], Pairs := [],
    IdMap := [], MCtr := 0, FCtr := 0 }

/-- Witness for C3 at `expTiny` (the exposed set of code `0` is empty, so
the cell keeps `RR = 1.0` and an empty patient list). -/
theorem rr_skip_gates_witness :
    ∃ expF, InitializeExperimentRelativeRiskRatios (fun _ _ _ _ _ => true) expTiny 0 1 1
        = some expF ∧
      (rrControlDraw ((fun _ _ _ _ _ => true) 0 0) expTiny (expTiny.DPatients 0)
          (patientsToIdMap (expTiny.DPatients 0)) 0).length
        ≤ (expTiny.DPatients 0).length ∧
      ((0 < (expTiny.DPatients 0).length ∧
          rrStepPasses ((fun _ _ _ _ _ => true) 0 0) 0 1 1 0 (expTiny.DPatients 0)
            (patientsToIdMap (expTiny.DPatients 0)) expTiny 0) →
        expF.DxDRR 0 0 = rrStepRR ((fun _ _ _ _ _ => true) 0 0) 0 1 1 0
            (expTiny.DPatients 0) (patientsToIdMap (expTiny.DPatients 0)) expTiny 0 ∧
        expF.DxDPatients 0 0 = rrStepFollowed 0 0 0 1 (expTiny.DPatients 0)) ∧
      (¬(0 < (expTiny.DPatients 0).length ∧
          rrStepPasses ((fun _ _ _ _ _ => true) 0 0) 0 1 1 0 (expTiny.DPatients 0)
            (patientsToIdMap (expTiny.DPatients 0)) expTiny 0) →
        expF.DxDRR 0 0 = 1 ∧ expF.DxDPatients 0 0 = []) :=
  rr_skip_gates (fun _ _ _ _ _ => true) expTiny 0 1 1 0 0
    (fun _ p hp => absurd hp (List.not_mem_nil p)) Nat.one_pos Nat.one_pos rfl rfl

/-- Witness for C10: the cohort-construction half at a one-patient
population, the engine half at `expTiny`. -/
theorem rr_engine_no_panic_witness :
    (∀ c ∈ InitializeCohorts [patientZeroId] 1 1 1,
      ∀ d : ℕ, ∀ p ∈ c.DPatients d, hasDiagnosisWith p d) ∧
    (InitializeExperimentRelativeRiskRatios (fun _ _ _ _ _ => true) expTiny 0 1 1).isSome :=
  ⟨rr_engine_no_panic.1 [patientZeroId] 1 1 1,
   rr_engine_no_panic.2 (fun _ _ _ _ _ => true) expTiny 0 1 1
     (fun _ p hp => absurd hp (List.not_mem_nil p))⟩

/-! ## Claims C1 and C2 — the trajectory builder -/

/-- Adjacent diagnoses of a chain form selected pairs. -/
def chainInPairs (pairs : List Pair) (l : List ℕ) : Prop :=
  List.Chain' (fun a b => Pair.mk a b ∈ pairs) l

/-- Unfolding equation of the worker loop: empty stack. -/
theorem buildLoop_nil (exp : Experiment) (pairs : List Pair)
    (minPatients maxLength minLength : ℕ) (minTime maxTime : ℚ) :
    buildLoop exp pairs minPatients maxLength minLength minTime maxTime [] = [] := by
  simp only [buildLoop]

/-- Unfolding equation of the worker loop: pop, process, queue. -/
theorem buildLoop_cons (exp : Experiment) (pairs : List Pair)
    (minPatients maxLength minLength : ℕ) (minTime maxTime : ℚ)
    (t : Trajectory) (rest : List Trajectory) :
    buildLoop exp pairs minPatients maxLength minLength minTime maxTime (t :: rest)
      = (processOne exp pairs minPatients maxLength minLength minTime maxTime t).1
        ++ buildLoop exp pairs minPatients maxLength minLength minTime maxTime
          (rest ++ (processOne exp pairs minPatients maxLength minLength minTime maxTime t).2) := by
  rw [buildLoop]

/-- Full characterization of the extension fold: the popped trajectory's
diagnosis chain is untouched, every emitted extension appends the second
component of a candidate pair whose first component is the last diagnosis
and reaches `maxLength`, and every pushed extension does the same but
stays below `maxLength`. -/
theorem buildStep_fold_spec (exp : Experiment) (minPatients maxLength : ℕ)
    (minTime maxTime : ℚ) (l : List Pair)
    (acc : Trajectory × List Trajectory × List Trajectory) :
    (l.foldl (buildStep exp minPatients maxLength minTime maxTime) acc).1.Diagnoses
        = acc.1.Diagnoses ∧
    (∀ T ∈ (l.foldl (buildStep exp minPatients maxLength minTime maxTime) acc).2.1,
      T ∈ acc.2.1 ∨ ∃ pr ∈ l, pr.First = lastDiagnosis acc.1 ∧
        T.Diagnoses = acc.1.Diagnoses ++ [pr.Second] ∧ maxLength ≤ T.Diagnoses.length) ∧
    (∀ T ∈ (l.foldl (buildStep exp minPatients maxLength minTime maxTime) acc).2.2,
      T ∈ acc.2.2 ∨ ∃ pr ∈ l, pr.First = lastDiagnosis acc.1 ∧
        T.Diagnoses = acc.1.Diagnoses ++ [pr.Second] ∧ T.Diagnoses.length < maxLength) := by
  induction l generalizing acc with
  | nil => exact ⟨rfl, fun T hT => Or.inl hT, fun T hT => Or.inl hT⟩
  | cons pr rest ih =>
    have hstep :
        (buildStep exp minPatients maxLength minTime maxTime acc pr).1.Diagnoses
            = acc.1.Diagnoses ∧
        ((buildStep exp minPatients maxLength minTime maxTime acc pr).2.1 = acc.2.1 ∨
          ∃ q, (buildStep exp minPatients maxLength minTime maxTime acc pr).2.1
              = acc.2.1 ++ [q] ∧ pr.First = lastDiagnosis acc.1 ∧
            q.Diagnoses = acc.1.Diagnoses ++ [pr.Second] ∧
            maxLength ≤ q.Diagnoses.length) ∧
        ((buildStep exp minPatients maxLength minTime maxTime acc pr).2.2 = acc.2.2 ∨
          ∃ q, (buildStep exp minPatients maxLength minTime maxTime acc pr).2.2
              = acc.2.2 ++ [q] ∧ pr.First = lastDiagnosis acc.1 ∧
            q.Diagnoses = acc.1.Diagnoses ++ [pr.Second] ∧
            q.Diagnoses.length < maxLength) := by
      simp only [buildStep]
      split_ifs with h1 h2 h3
      · exact ⟨rfl, Or.inr ⟨_, rfl, h1.1, rfl, h3⟩, Or.inl rfl⟩
      · refine ⟨rfl, Or.inl rfl, Or.inr ⟨_, rfl, h1.1, rfl, ?_⟩⟩
        simp only [List.length_append, List.length_singleton] at h3 ⊢
        omega
      · exact ⟨rfl, Or.inl rfl, Or.inl rfl⟩
      · exact ⟨rfl, Or.inl rfl, Or.inl rfl⟩
    obtain ⟨hd, hem, hpu⟩ := hstep
    have hlast : lastDiagnosis (buildStep exp minPatients maxLength minTime maxTime acc pr).1
        = lastDiagnosis acc.1 := by
      rw [lastDiagnosis, lastDiagnosis, hd]
    have hih := ih (buildStep exp minPatients maxLength minTime maxTime acc pr)
    rw [List.foldl_cons]
    refine ⟨hih.1.trans hd, ?_, ?_⟩
    · intro T hT
      rcases hih.2.1 T hT with hmem | ⟨pr2, hpr2, hfst, hdiag, hlen⟩
      · rcases hem with heq | ⟨q, heq, hfst, hdiag, hlen⟩
        · exact Or.inl (heq ▸ hmem)
        · rw [heq] at hmem
          rcases List.mem_append.mp hmem with hmem2 | hmem2
          · exact Or.inl hmem2
          · rw [List.mem_singleton.mp hmem2]
            exact Or.inr ⟨pr, by simp, hfst, hdiag, hlen⟩
      · rw [hlast] at hfst
        rw [hd] at hdiag
        exact Or.inr ⟨pr2, by simp [hpr2], hfst, hdiag, hlen⟩
    · intro T hT
      rcases hih.2.2 T hT with hmem | ⟨pr2, hpr2, hfst, hdiag, hlen⟩
      · rcases hpu with heq | ⟨q, heq, hfst, hdiag, hlen⟩
        · exact Or.inl (heq ▸ hmem)
        · rw [heq] at hmem
          rcases List.mem_append.mp hmem with hmem2 | hmem2
          · exact Or.inl hmem2
          · rw [List.mem_singleton.mp hmem2]
            exact Or.inr ⟨pr, by simp, hfst, hdiag, hlen⟩
      · rw [hlast] at hfst
        rw [hd] at hdiag
        exact Or.inr ⟨pr2, by simp [hpr2], hfst, hdiag, hlen⟩

/-- Characterization of one pop: every emitted trajectory is either an
extension that reached `maxLength`, or the popped trajectory itself —
emitted only when nothing was pushed and `minLength` is reached; every
pushed trajectory is an extension below `maxLength`. -/
theorem processOne_spec (exp : Experiment) (pairs : List Pair)
    (minPatients maxLength minLength : ℕ) (minTime maxTime : ℚ) (t : Trajectory) :
    (∀ T ∈ (processOne exp pairs minPatients maxLength minLength minTime maxTime t).1,
      (∃ pr ∈ pairs, pr.First = lastDiagnosis t ∧
        T.Diagnoses = t.Diagnoses ++ [pr.Second] ∧ maxLength ≤ T.Diagnoses.length) ∨
      (T.Diagnoses = t.Diagnoses ∧ minLength ≤ t.Diagnoses.length ∧
        (processOne exp pairs minPatients maxLength minLength minTime maxTime t).2 = [])) ∧
    (∀ T ∈ (processOne exp pairs minPatients maxLength minLength minTime maxTime t).2,
      ∃ pr ∈ pairs, pr.First = lastDiagnosis t ∧
        T.Diagnoses = t.Diagnoses ++ [pr.Second] ∧ T.Diagnoses.length < maxLength) := by
  have hspec := buildStep_fold_spec exp minPatients maxLength minTime maxTime pairs (t, [], [])
  set r := pairs.foldl (buildStep exp minPatients maxLength minTime maxTime) (t, [], [])
    with hr
  have hP : processOne exp pairs minPatients maxLength minLength minTime maxTime t
      = if r.2.2 = [] ∧ minLength ≤ r.1.Diagnoses.length then (r.2.1 ++ [r.1], [])
        else (r.2.1, r.2.2) := rfl
  rw [hP]
  split_ifs with hfin
  · constructor
    · intro T hT
      rcases List.mem_append.mp hT with hmem | hmem
      · rcases hspec.2.1 T hmem with h | ⟨pr, hpr, hfst, hdiag, hlen⟩
        · simp at h
        · exact Or.inl ⟨pr, hpr, hfst, hdiag, hlen⟩
      · rw [List.mem_singleton.mp hmem]
        have hlen : minLength ≤ t.Diagnoses.length := by
          have := hfin.2
          rw [hspec.1] at this
          exact this
        exact Or.inr ⟨hspec.1, hlen, rfl⟩
    · intro T hT
      simp at hT
  · constructor
    · intro T hT
      rcases hspec.2.1 T hT with h | ⟨pr, hpr, hfst, hdiag, hlen⟩
      · simp at h
      · exact Or.inl ⟨pr, hpr, hfst, hdiag, hlen⟩
    · intro T hT
      rcases hspec.2.2 T hT with h | ⟨pr, hpr, hfst, hdiag, hlen⟩
      · simp at h
      · exact ⟨pr, hpr, hfst, hdiag, hlen⟩

/-- Appending the second component of a pair whose first component is the
last diagnosis preserves the chain property. -/
theorem chainInPairs_extend (pairs : List Pair) (t : Trajectory) (pr : Pair)
    (h2 : 1 ≤ t.Diagnoses.length) (hch : chainInPairs pairs t.Diagnoses)
    (hpr : pr ∈ pairs) (hfst : pr.First = lastDiagnosis t) :
    chainInPairs pairs (t.Diagnoses ++ [pr.Second]) := by
  rw [chainInPairs, List.chain'_append]
  refine ⟨hch, List.chain'_singleton _, ?_⟩
  intro x hx y hy
  simp only [List.head?_cons, Option.mem_def, Option.some.injEq] at hy
  subst hy
  show Pair.mk x pr.Second ∈ pairs
  have hgl : t.Diagnoses.getLast?.getD 0 = x := by
    rw [Option.mem_def] at hx
    rw [hx]
    rfl
  have hx2 : pr.First = x := by rw [hfst, lastDiagnosis, hgl]
  rw [← hx2]
  exact hpr

/-- Soundness of the worker loop: starting from a stack of chains of
length at least `2` that are seeds (length exactly `2`) or below
`maxLength`, every produced trajectory has length between `2` and
`max maxLength 3`, its adjacent diagnoses are candidate pairs, and it
either reached at least `maxLength` (it was finalized as an extension) or
has at least `minLength` diagnoses and was the popped trajectory of a pop
that pushed nothing. -/
theorem buildLoop_sound (exp : Experiment) (pairs : List Pair)
    (minPatients maxLength minLength : ℕ) (minTime maxTime : ℚ) :
    ∀ (n : ℕ) (stack : List Trajectory),
      stackMeasure pairs.length maxLength stack ≤ n →
      (∀ t ∈ stack, 2 ≤ t.Diagnoses.length ∧
        (t.Diagnoses.length = 2 ∨ t.Diagnoses.length < maxLength) ∧
        chainInPairs pairs t.Diagnoses) →
      ∀ T ∈ buildLoop exp pairs minPatients maxLength minLength minTime maxTime stack,
        2 ≤ T.Diagnoses.length ∧ T.Diagnoses.length ≤ max maxLength 3 ∧
        chainInPairs pairs T.Diagnoses ∧
        (maxLength ≤ T.Diagnoses.length ∨
          (minLength ≤ T.Diagnoses.length ∧
            ∃ t0 : Trajectory, t0.Diagnoses = T.Diagnoses ∧
              (processOne exp pairs minPatients maxLength minLength minTime maxTime t0).2
                  = [] ∧
              T ∈ (processOne exp pairs minPatients maxLength minLength minTime maxTime
                t0).1)) := by
  intro n
  induction n with
  | zero =>
    intro stack hmeas hinv T hT
    cases stack with
    | nil =>
      rw [buildLoop_nil] at hT
      exact absurd hT (List.not_mem_nil T)
    | cons t rest =>
      exfalso
      have hpos : 0 < trajWeight pairs.length maxLength t :=
        Nat.pos_pow_of_pos _ (by omega)
      have hlt : 0 < stackMeasure pairs.length maxLength (t :: rest) := by
        simp only [stackMeasure, List.map_cons, List.sum_cons]
        omega
      omega
  | succ n ih =>
    intro stack hmeas hinv T hT
    cases stack with
    | nil =>
      rw [buildLoop_nil] at hT
      exact absurd hT (List.not_mem_nil T)
    | cons t rest =>
      rw [buildLoop_cons] at hT
      have hinvt := hinv t (by simp)
      have hps := processOne_spec exp pairs minPatients maxLength minLength minTime maxTime t
      rcases List.mem_append.mp hT with hem | hrec
      · rcases hps.1 T hem with ⟨pr, hpr, hfst, hdiag, hlenT⟩ | ⟨hdiag, hminl, hnil⟩
        · have hlen1 : T.Diagnoses.length = t.Diagnoses.length + 1 := by
            rw [hdiag]; simp
          have hbound : T.Diagnoses.length ≤ max maxLength 3 := by
            rcases hinvt.2.1 with h2 | h2 <;> omega
          refine ⟨by have := hinvt.1; omega, hbound, ?_, Or.inl hlenT⟩
          rw [hdiag]
          exact chainInPairs_extend pairs t pr (by have := hinvt.1; omega)
            hinvt.2.2 hpr hfst
        · refine ⟨by rw [hdiag]; exact hinvt.1, ?_, by rw [hdiag]; exact hinvt.2.2,
            Or.inr ⟨by rw [hdiag]; exact hminl, t, hdiag.symm, hnil, hem⟩⟩
          rw [hdiag]
          rcases hinvt.2.1 with h2 | h2 <;> omega
      · refine ih (rest ++ (processOne exp pairs minPatients maxLength minLength
          minTime maxTime t).2) ?_ ?_ T hrec
        · have hdec := processOne_measure exp pairs minPatients maxLength minLength
            minTime maxTime t
          simp only [stackMeasure, List.map_cons, List.sum_cons, List.map_append,
            List.sum_append] at hmeas hdec ⊢
          omega
        · intro u hu
          rcases List.mem_append.mp hu with h | h
          · exact hinv u (by simp [h])
          · rcases hps.2 u h with ⟨pr, hpr, hfst, hdiag, hlt⟩
            refine ⟨?_, Or.inr hlt, ?_⟩
            · rw [hdiag]
              simp only [List.length_append, List.length_singleton]
              have := hinvt.1
              omega
            · rw [hdiag]
              exact chainInPairs_extend pairs t pr (by have := hinvt.1; omega)
                hinvt.2.2 hpr hfst

/-- **C2** (amended).  For every run of the trajectory builder, every
emitted trajectory `T` has at least `2` and at most `max maxLength 3`
diagnoses (so at most `maxLength` whenever `maxLength ≥ 3`, but length `3`
is emitted when `maxLength ≤ 2`, exceeding the claimed bound), and every
adjacent pair of its diagnoses is one of the selected pairs; moreover `T`
either has at least `maxLength` diagnoses (it was finalized as an
extension reaching `maxLength`; such a trajectory can be shorter than
`minLength`), or has at least `minLength` diagnoses and is the popped
trajectory of a pop that pushed no extension.  A pop that pushes nothing
may still *emit* a finalized extension of `T` in the same step, because
emission at `maxLength` does not increment the push counter `ctr` — so
"pushed no extension" cannot be strengthened to the original claim's "no
extension survives". -/
theorem buildTrajectories_emission_invariant (binomCdf : ℚ → ℕ → ℕ → ℚ)
    (exp : Experiment) (minPatients maxLength minLength : ℕ)
    (minTime maxTime minRR : ℚ) (filters : List TrajectoryFilter) :
    ∀ T ∈ BuildTrajectories binomCdf exp minPatients maxLength minLength
        minTime maxTime minRR filters,
      2 ≤ T.Diagnoses.length ∧ T.Diagnoses.length ≤ max maxLength 3 ∧
      chainInPairs (selectDiagnosisPairs binomCdf exp minPatients minRR) T.Diagnoses ∧
      (maxLength ≤ T.Diagnoses.length ∨
        (minLength ≤ T.Diagnoses.length ∧
          ∃ t0 : Trajectory, t0.Diagnoses = T.Diagnoses ∧
            (processOne exp (selectDiagnosisPairs binomCdf exp minPatients minRR)
              minPatients maxLength minLength minTime maxTime t0).2 = [] ∧
            T ∈ (processOne exp (selectDiagnosisPairs binomCdf exp minPatients minRR)
              minPatients maxLength minLength minTime maxTime t0).1)) := by
  intro T hT
  simp only [BuildTrajectories] at hT
  have hT2 := (List.mem_filter.mp hT).1
  refine buildLoop_sound exp (selectDiagnosisPairs binomCdf exp minPatients minRR)
    minPatients maxLength minLength minTime maxTime
    (stackMeasure (selectDiagnosisPairs binomCdf exp minPatients minRR).length maxLength
      ((selectDiagnosisPairs binomCdf exp minPatients minRR).map
        (seedTrajectory exp minTime maxTime)))
    _ (le_refl _) ?_ T hT2
  intro t ht
  rcases List.mem_map.mp ht with ⟨pr, hpr, hseed⟩
  have hd : t.Diagnoses = [pr.First, pr.Second] := by rw [← hseed]; rfl
  refine ⟨by rw [hd]; simp, Or.inl (by rw [hd]; rfl), ?_⟩
  rw [chainInPairs, hd, List.chain'_pair]
  exact hpr

/-! ### A concrete run of the builder

The patient `qC1` carries the diagnosis record `0, 1, 3, 2`; the matrices
of `expC1` are an experiment state as produced by `LoadRRMatrix` /
`LoadDxDPatients` (or by the RR engine): RR above `1` for `1→2` and
`2→3`, and patient `qC1` supporting `1→2`. -/

/-- A patient with diagnosis record `0, 1, 3, 2` (dates 1999-01-01,
2000-01-01, 2000-09-01, 2001-01-01). -/
def qC1 : Patient :=
  { PID := 7, PIDString := "q7", YOB := 1998, CohortAge := 0, Sex := 0,
    Diagnoses :=
      [{ PID := 7, DID := 0, Date := { Year := 1999, Month := 1, Day := 1 } },
       { PID := 7, DID := 1, Date := { Year := 2000, Month := 1, Day := 1 } },
       { PID := 7, DID := 3, Date := { Year := 2000, Month := 9, Day := 1 } },
       { PID := 7, DID := 2, Date := { Year := 2001, Month := 1, Day := 1 } }],
    EOIDate := none, DeathDate := none, Region := 0 }

/-- An experiment state with four diagnosis codes: RR above `1` for the
cells `(1,2)` and `(2,3)`, patient `qC1` in the `(1,2)` patient cell. -/
def expC1 : Experiment :=
  { NofAgeGroups := 1, NofRegions := 1, Level := 0, NofDiagnosisCodes := 4,
    DxDRR := fun i j => if (i = 1 ∧ j = 2) ∨ (i = 2 ∧ j = 3) then 2 else 1,
    DxDPatients := fun i j => if i = 1 ∧ j = 2 then [qC1] else [],
    DPatients := fun _ => [], Cohorts := [], Name := "c1",
    NameMap := ["n0", "n1", "n2", "n3"], Trajectories := [], Pairs := [],
    IdMap := [], MCtr := 0, FCtr := 0 }

/-- The seed trajectory of the pair `1→2` in the run of `expC1`. -/
def sC1a : Trajectory :=
  { Diagnoses := [1, 2], PatientNumbers := [1], Patients := [[qC1]],
    TrajMap := [(qC1, 1)], ID := 0, Cluster := 0 }

/-- The popped `1→2` seed as emitted: its working map was overwritten by
the extension step. -/
def tC1a : Trajectory :=
  { Diagnoses := [1, 2], PatientNumbers := [1], Patients := [[qC1]],
    TrajMap := [(qC1, 2)], ID := 0, Cluster := 0 }

/-- The seed trajectory of the pair `2→3` in the run of `expC1`, emitted
unchanged. -/
def tC1b : Trajectory :=
  { Diagnoses := [2, 3], PatientNumbers := [0], Patients := [[]],
    TrajMap := [], ID := 0, Cluster := 0 }

/-- The full-length trajectory `1→2→3` emitted in the run of `expC1`,
with `qC1` recorded as the supporting patient of its final step. -/
def tC1full : Trajectory :=
  { Diagnoses := [1, 2, 3], PatientNumbers := [1, 1],
    Patients := [[qC1], [qC1]], TrajMap := [], ID := 0, Cluster := 0 }

/-- Specification-side matcher, modelled from the spec's words (not from
the code): the patient's diagnosis list has a subsequence whose DIDs equal
the given chain and in which the elapsed time between consecutive matched
diagnoses lies within `[minTime, maxTime]`; `prev` is the date of the
previously matched diagnosis. -/
def specFollowsChain (minTime maxTime : ℚ) :
    Option DiagnosisDate → List ℕ → List Diagnosis → Bool
  | _, [], _ => true
  | _, _ :: _, [] => false
  | prev, c :: cs, d :: ds =>
    (d.DID == c &&
      (match prev with
       | none => true
       | some pd =>
         decide (DiagnosisDateToFloat d.Date - DiagnosisDateToFloat pd ≤ maxTime) &&
           decide (minTime ≤ DiagnosisDateToFloat d.Date - DiagnosisDateToFloat pd)) &&
      specFollowsChain minTime maxTime (some d.Date) cs ds)
    || specFollowsChain minTime maxTime prev (c :: cs) ds

/-- The pair selector on `expC1` picks exactly `1→2` and `2→3`. -/
theorem expC1_pairs :
    selectDiagnosisPairs (fun _ _ _ => (0 : ℚ)) expC1 0 1
      = [Pair.mk 1 2, Pair.mk 2 3] := by
  have hup : upperIndexPairs expC1.NameMap.length
      = [(0, 0), (0, 1), (0, 2), (0, 3), (1, 1), (1, 2), (1, 3), (2, 2), (2, 3),
         (3, 3)] := by rfl
  simp only [selectDiagnosisPairs]
  rw [hup]
  norm_num [selectPairStep, expC1, List.flatMap_cons, List.flatMap_nil]

/-- `countPatientDiagnosisPair` on `qC1` for `1→2` returns the index `1`
relative to the suffix after the `d1` hit (the absolute index of the `d2`
hit is `3`). -/
theorem qC1_pair12 : countPatientDiagnosisPair qC1 1 2 0 5 = some (1, 1) := by
  norm_num [countPatientDiagnosisPair, qC1, findPairIdx, List.findIdx?_cons,
    List.findIdx?_nil, DiagnosisDateToFloat]

/-- `countPatientTrajectory` on `qC1` from index `1` (the position of the
DID-`1` diagnosis, where the stored suffix-relative index `1` points) finds
a DID-`3` diagnosis at absolute index `2` within the window. -/
theorem qC1_traj13 : countPatientTrajectory qC1 1 3 0 5 = 2 := by
  norm_num [countPatientTrajectory, qC1, findPairIdx, List.findIdx?_cons,
    List.findIdx?_nil, DiagnosisDateToFloat]

/-- The seed of `1→2` in the run of `expC1`. -/
theorem expC1_seed12 : seedTrajectory expC1 0 5 (Pair.mk 1 2) = sC1a := by
  simp [seedTrajectory, expC1, sC1a, qC1_pair12]

/-- The seed of `2→3` in the run of `expC1`. -/
theorem expC1_seed23 : seedTrajectory expC1 0 5 (Pair.mk 2 3) = tC1b := by
  simp [seedTrajectory, expC1, tC1b]

/-- Popping the `1→2` seed emits the full-length trajectory `1→2→3` and
then the seed itself (nothing was pushed: emission at `maxLength` does not
touch the push counter). -/
theorem expC1_processOne_a :
    processOne expC1 [Pair.mk 1 2, Pair.mk 2 3] 0 3 2 0 5 sC1a
      = ([tC1full, tC1a], []) := by
  simp [processOne, buildStep, extendTrajectory, lastDiagnosis, expC1, sC1a,
    tC1a, tC1full, qC1_traj13, List.getLast?_cons_cons, List.getLast?_singleton]

/-- Popping the `2→3` seed emits it unchanged. -/
theorem expC1_processOne_b :
    processOne expC1 [Pair.mk 1 2, Pair.mk 2 3] 0 3 2 0 5 tC1b
      = ([tC1b], []) := by
  simp [processOne, buildStep, lastDiagnosis, tC1b, List.getLast?_cons_cons,
    List.getLast?_singleton]

/-- The complete run of the builder on `expC1`. -/
theorem expC1_run :
    BuildTrajectories (fun _ _ _ => (0 : ℚ)) expC1 0 3 2 0 5 1 []
      = [tC1full, tC1a, tC1b] := by
  simp only [BuildTrajectories, expC1_pairs, List.map_cons, List.map_nil,
    expC1_seed12, expC1_seed23]
  rw [buildLoop_cons]
  simp only [expC1_processOne_a]
  simp only [List.append_nil, List.nil_append]
  rw [buildLoop_cons]
  simp only [expC1_processOne_b]
  simp only [List.append_nil, List.nil_append]
  rw [buildLoop_nil]
  simp

/-- With `maxLength = 2` the pop of the `1→2` seed still emits the
length-3 extension `1→2→3` (the finalization test is `maxLength ≤ len`),
then the seed itself. -/
theorem expC1_processOne_a2 :
    processOne expC1 [Pair.mk 1 2, Pair.mk 2 3] 0 2 2 0 5 sC1a
      = ([tC1full, tC1a], []) := by
  simp [processOne, buildStep, extendTrajectory, lastDiagnosis, expC1, sC1a,
    tC1a, tC1full, qC1_traj13, List.getLast?_cons_cons, List.getLast?_singleton]

/-- With `maxLength = 2` the pop of the `2→3` seed emits it unchanged. -/
theorem expC1_processOne_b2 :
    processOne expC1 [Pair.mk 1 2, Pair.mk 2 3] 0 2 2 0 5 tC1b
      = ([tC1b], []) := by
  simp [processOne, buildStep, lastDiagnosis, tC1b, List.getLast?_cons_cons,
    List.getLast?_singleton]

/-- The run of the builder on `expC1` with `maxLength = 2`: a length-3
trajectory is emitted although `maxLength = 2`. -/
theorem expC1_run2 :
    BuildTrajectories (fun _ _ _ => (0 : ℚ)) expC1 0 2 2 0 5 1 []
      = [tC1full, tC1a, tC1b] := by
  simp only [BuildTrajectories, expC1_pairs, List.map_cons, List.map_nil,
    expC1_seed12, expC1_seed23]
  rw [buildLoop_cons]
  simp only [expC1_processOne_a2]
  simp only [List.append_nil, List.nil_append]
  rw [buildLoop_cons]
  simp only [expC1_processOne_b2]
  simp only [List.append_nil, List.nil_append]
  rw [buildLoop_nil]
  simp

/-- With `minLength = 4 > maxLength = 3` the pop of the `1→2` seed emits
only the finalized extension; the seed fails the `minLength` test. -/
theorem expC1_processOne_a3 :
    processOne expC1 [Pair.mk 1 2, Pair.mk 2 3] 0 3 4 0 5 sC1a
      = ([tC1full], []) := by
  simp [processOne, buildStep, extendTrajectory, lastDiagnosis, expC1, sC1a,
    tC1full, qC1_traj13, List.getLast?_cons_cons, List.getLast?_singleton]

/-- With `minLength = 4` the pop of the `2→3` seed emits nothing. -/
theorem expC1_processOne_b3 :
    processOne expC1 [Pair.mk 1 2, Pair.mk 2 3] 0 3 4 0 5 tC1b
      = ([], []) := by
  simp [processOne, buildStep, lastDiagnosis, tC1b, List.getLast?_cons_cons,
    List.getLast?_singleton]

/-- The run of the builder on `expC1` with `minLength = 4 > maxLength = 3`:
the finalized trajectory `1→2→3` of length `3 < minLength` is emitted. -/
theorem expC1_run3 :
    BuildTrajectories (fun _ _ _ => (0 : ℚ)) expC1 0 3 4 0 5 1 []
      = [tC1full] := by
  simp only [BuildTrajectories, expC1_pairs, List.map_cons, List.map_nil,
    expC1_seed12, expC1_seed23]
  rw [buildLoop_cons]
  simp only [expC1_processOne_a3]
  simp only [List.append_nil, List.nil_append]
  rw [buildLoop_cons]
  simp only [expC1_processOne_b3]
  simp only [List.append_nil, List.nil_append]
  rw [buildLoop_nil]
  simp

/-- `qC1` has no subsequence `1, 2, 3` with windowed gaps in its diagnosis
record (its DID order is `0, 1, 3, 2`: no `3` follows a `2` at all). -/
theorem qC1_no_chain123 :
    specFollowsChain 0 5 none [1, 2, 3] qC1.Diagnoses = false := by
  norm_num [specFollowsChain, qC1, DiagnosisDateToFloat, decide_eq_true,
    decide_eq_false]

/-- **C1**.  Refuted as stated — the builder emits a trajectory whose
final-step patient does not follow the trajectory: on `expC1` the run
emits `1→2→3` with final-step patient list `[qC1]`, yet `qC1`'s diagnosis
record `0, 1, 3, 2` contains no subsequence `1, 2, 3` within any window.
Root cause: `countPatientDiagnosisPair` returns an index relative to the
suffix after the `d1` hit, and `BuildTrajectories` stores it in `TrajMap`
where `extendTrajectory`/`countPatientTrajectory` use it as an absolute
index, so the extension scan starts from the wrong diagnosis. -/
theorem trajectory_final_step_support_bug :
    ∃ T ∈ BuildTrajectories (fun _ _ _ => (0 : ℚ)) expC1 0 3 2 0 5 1 [],
      T.Diagnoses = [1, 2, 3] ∧ T.Patients.getLast?.getD [] = [qC1] ∧
      ∀ p ∈ T.Patients.getLast?.getD [],
        specFollowsChain 0 5 none T.Diagnoses p.Diagnoses = false := by
  refine ⟨tC1full, ?_, rfl, rfl, ?_⟩
  · rw [expC1_run]
    simp
  · intro p hp
    have hp2 : p = qC1 := by
      have : p ∈ [qC1] := hp
      simpa using this
    rw [hp2]
    exact qC1_no_chain123

/-- **C2** (counterexample to the original claim).  All three clauses of
the original claim fail on reachable runs of the builder over `expC1`:
(a) with `maxLength = 3` the trajectory `1→2` of length `2 < maxLength` is
emitted even though its extension `1→2→3` survives (it is emitted in the
same pop — emission at `maxLength` does not increment the push counter
`ctr`, so the parent is emitted too); (b) with `maxLength = 2` a length-3
trajectory is emitted, violating the `|T| ≤ maxLength` bound; (c) with
`minLength = 4 > maxLength = 3` the finalized trajectory `1→2→3` of length
`3 < minLength` is emitted, violating the `minLength ≤ |T|` bound. -/
theorem builder_violates_original_emission_claim :
    (∃ T1 ∈ BuildTrajectories (fun _ _ _ => (0 : ℚ)) expC1 0 3 2 0 5 1 [],
      ∃ T2 ∈ BuildTrajectories (fun _ _ _ => (0 : ℚ)) expC1 0 3 2 0 5 1 [],
        T1.Diagnoses = [1, 2] ∧ T1.Diagnoses.length < 3 ∧
        T2.Diagnoses = T1.Diagnoses ++ [3]) ∧
    (∃ T ∈ BuildTrajectories (fun _ _ _ => (0 : ℚ)) expC1 0 2 2 0 5 1 [],
      2 < T.Diagnoses.length) ∧
    (∃ T ∈ BuildTrajectories (fun _ _ _ => (0 : ℚ)) expC1 0 3 4 0 5 1 [],
      T.Diagnoses.length < 4) := by
  refine ⟨⟨tC1a, ?_, tC1full, ?_, rfl, by decide, rfl⟩,
    ⟨tC1full, ?_, by decide⟩, ⟨tC1full, ?_, by decide⟩⟩
  · rw [expC1_run]
    simp
  · rw [expC1_run]
    simp
  · rw [expC1_run2]
    simp
  · rw [expC1_run3]
    simp

/-- Witness for the amended C2 invariant at the concrete run on `expC1`. -/
theorem buildTrajectories_emission_invariant_witness :
    2 ≤ tC1a.Diagnoses.length ∧ tC1a.Diagnoses.length ≤ max 3 3 := by
  have hmem : tC1a ∈ BuildTrajectories (fun _ _ _ => (0 : ℚ)) expC1 0 3 2 0 5 1 [] := by
    rw [expC1_run]
    simp
  have h := buildTrajectories_emission_invariant (fun _ _ _ => (0 : ℚ)) expC1 0 3 2
    0 5 1 [] tC1a hmem
  exact ⟨h.1, h.2.1⟩

end Ptra
